import Mathlib

/-!
Verification of the gait repository's core algorithms against its
specification: the history reconstructor (`getGitHistory` / `processCommit`
in `src/extension.ts`, plus the variant embedded in `gait_context.md`), the
range matcher (`matchDiffToCurrentFile`), and the snapshot store
(`writeChatToStashedState`).  TypeScript sources are shallowly embedded:
mutation is modelled by explicit state passing, JavaScript `Set`s by lists
used only through membership, external git/fs effects by an environment
record describing their outcomes.
-/

namespace Gait

/-! ### Snapshot model (`types.ts` shapes as used by the sources)

A `MessageEntry` and `PanelChat` carry the fields the embedded code reads.
`deletedChats` and its sub-fields may be absent in historical payloads, so
they are `Option`s; `ensureDeletedChats` / the inline normalisation in
`getGitHistory` treat absence as empty. -/

structure MessageEntry where
  id : String
  messageText : String
  responseText : String
  deriving Repr, DecidableEq

structure PanelChat where
  ai_editor : String
  id : String
  customTitle : String
  parent_id : Option String
  created_on : String
  messages : List MessageEntry
  deriving Repr, DecidableEq

/-- The two ledger arrays, each possibly absent or non-array in raw JSON
(`none` models both absence and a non-array value, which the source treats
identically). -/
structure DeletedChatsRaw where
  deletedMessageIDs : Option (List String)
  deletedPanelChatIDs : Option (List String)
  deriving Repr, DecidableEq

/-- A ledger normalised by `ensureDeletedChats`. -/
structure DeletedChats where
  deletedMessageIDs : List String
  deletedPanelChatIDs : List String
  deriving Repr, DecidableEq

structure StashedState where
  panelChats : List PanelChat
  schemaVersion : String
  deletedChats : Option DeletedChatsRaw
  deriving Repr, DecidableEq

/-- The normalisation performed by `ensureDeletedChats` (extension.ts:438-453)
and by the inline checks in `getGitHistory` (extension.ts:574-590): a missing
`deletedChats`, or a missing/non-array sub-field, becomes an empty array. -/
def normDeletedChats : Option DeletedChatsRaw → DeletedChats
  | none => ⟨[], []⟩
  | some r => ⟨r.deletedMessageIDs.getD [], r.deletedPanelChatIDs.getD []⟩

/-- `ensureDeletedChats` (extension.ts:438-453) as a state transformer: after
it, `deletedChats` and both sub-fields are present arrays. -/
def ensureDeletedChats (s : StashedState) : StashedState :=
  { s with deletedChats := some (DeletedChatsRaw.mk
      (some (normDeletedChats s.deletedChats).deletedMessageIDs)
      (some (normDeletedChats s.deletedChats).deletedPanelChatIDs)) }

/-! ### String primitives

`split('\n')`, `trim()` and `startsWith` re-implemented structurally over
the character list, with JavaScript's semantics (whitespace here is the
ASCII class, which coincides with JS on the code text these functions
see). -/

/-- `text.split('\n')` on the character level: every `'\n'` separates,
an empty text yields `[""]`, a trailing `'\n'` yields a final `""`. -/
def splitLinesAux : List Char → List Char → List (List Char)
  | [], acc => [acc.reverse]
  | c :: cs, acc =>
    if c = '\n' then acc.reverse :: splitLinesAux cs []
    else splitLinesAux cs (c :: acc)

def splitLines (s : String) : List String :=
  (splitLinesAux s.data []).map (fun l => ⟨l⟩)

/-- `trim()`: strip whitespace from both ends. -/
def trimChars (l : List Char) : List Char :=
  ((l.dropWhile Char.isWhitespace).reverse.dropWhile Char.isWhitespace).reverse

def strTrim (s : String) : String :=
  ⟨trimChars s.data⟩

/-- `s.startsWith(p)`. -/
def strStartsWith (s p : String) : Bool :=
  p.data.isPrefixOf s.data

/-! ### Range matcher (`matchDiffToCurrentFile`, extension.ts:1136-1216) -/

/-- One element of the `Diff.Change[]` input; the matcher reads only
`added` and `value`. -/
structure DiffChange where
  value : String
  added : Bool
  removed : Bool
  deriving Repr, DecidableEq

/-- A `vscode.Range` as the matcher builds them: line/character pairs. -/
structure LineRange where
  startLine : Nat
  startChar : Nat
  endLine : Nat
  endChar : Nat
  deriving Repr, DecidableEq

/-- `document.getText().split('\n')` (extension.ts:1144). -/
def docLinesOf (text : String) : List String :=
  splitLines text

/-- `isMeaningfulLine` (extension.ts:1136-1138): the trimmed line contains an
ASCII alphanumeric character and does not start with `import `. -/
def isMeaningfulLine (line : String) : Bool :=
  (strTrim line).data.any (fun ch => ch.isAlphanum)
    && !(strStartsWith (strTrim line) "import ")

/-- The added lines before deduplication (extension.ts:1146-1150): values of
added changes, split into lines, trimmed, blank lines dropped. -/
def addedLinesRaw (diff : List DiffChange) : List String :=
  ((diff.filter (fun c => c.added)).flatMap
      (fun c => (splitLines c.value).map strTrim)).filter
    (fun l => 0 < (strTrim l).length)

/-- `addedLinesSet` (extension.ts:1146): a JS `Set`, i.e. the distinct added
lines; used through membership and its size. -/
def addedSet (diff : List DiffChange) : List String :=
  (addedLinesRaw diff).dedup

/-- The scan of extension.ts:1159-1165: indices of document lines whose
trimmed text is in the added set, in increasing order. -/
def matchingLineNumbers (text : String) (diff : List DiffChange) : List Nat :=
  (List.range (docLinesOf text).length).filter
    (fun i => strTrim ((docLinesOf text).getD i "") ∈ addedSet diff)

/-- `lineOccurrences.get t` after the scan: how many matching lines of the
document have trimmed text `t`. -/
def occCount (text : String) (diff : List DiffChange) (t : String) : Nat :=
  ((matchingLineNumbers text diff).filter
    (fun i => strTrim ((docLinesOf text).getD i "") = t)).length

/-- `new vscode.Range(j, 0, j, documentLines[j].length)`. -/
def mkLineRange (text : String) (j : Nat) : LineRange :=
  ⟨j, 0, j, ((docLinesOf text).getD j "").length⟩

/-- The meaningful-line counter of the large-change path
(extension.ts:1191-1197): lines of `[s..e]` whose trimmed text has an
alphanumeric character (no import check here). -/
def meaningfulCount (text : String) (s e : Nat) : Nat :=
  ((List.range' s (e + 1 - s)).filter
    (fun j => (strTrim ((docLinesOf text).getD j "")).data.any (fun ch => ch.isAlphanum))).length

/-- Closing one run `[s..e]` of consecutive matching lines
(extension.ts:1199-1208): accepted wholesale with ≥ 2 meaningful lines,
via its first line when exactly one is meaningful, discarded otherwise. -/
def runClose (text : String) (diff : List DiffChange) (s e : Nat) : List LineRange :=
  if 2 ≤ meaningfulCount text s e then
    (List.range' s (e + 1 - s)).map (mkLineRange text)
  else if meaningfulCount text s e = 1 then
    if occCount text diff (strTrim ((docLinesOf text).getD s "")) = 1
        ∧ isMeaningfulLine (strTrim ((docLinesOf text).getD s "")) = true then
      [mkLineRange text s]
    else []
  else []

/-- The large-change loop of extension.ts:1180-1213, recursion on the list of
matching line numbers with the `start` accumulator (`none` models
`start === -1`). -/
def processRuns (text : String) (diff : List DiffChange) :
    List Nat → Option Nat → List LineRange
  | [], _ => []
  | [c], so => runClose text diff (so.getD c) c
  | c :: c' :: rest, so =>
    if c' = c + 1 then
      processRuns text diff (c' :: rest) (some (so.getD c))
    else
      runClose text diff (so.getD c) c ++ processRuns text diff (c' :: rest) none

/-- `matchDiffToCurrentFile` (extension.ts:1140-1216). -/
def matchDiffToCurrentFile (text : String) (diff : List DiffChange) : List LineRange :=
  if (addedSet diff).length = 0 then []
  else if (addedSet diff).length < 5 then
    ((matchingLineNumbers text diff).filter
      (fun j => isMeaningfulLine ((docLinesOf text).getD j "")
        && (occCount text diff (strTrim ((docLinesOf text).getD j "")) == 1))).map
      (mkLineRange text)
  else
    processRuns text diff (matchingLineNumbers text diff) none

/-- A range covers line `j` (closed line interval, the claims' reading). -/
def coversLine (r : LineRange) (j : Nat) : Prop :=
  r.startLine ≤ j ∧ j ≤ r.endLine

instance (r : LineRange) (j : Nat) : Decidable (coversLine r j) := by
  unfold coversLine; infer_instance

/-- Some range of the list covers line `j`. -/
def coveredBy (rs : List LineRange) (j : Nat) : Prop :=
  ∃ r ∈ rs, coversLine r j

instance (rs : List LineRange) (j : Nat) : Decidable (coveredBy rs j) := by
  unfold coveredBy; infer_instance

/-- Maximal runs of consecutive numbers of a list, as `(first, last)` pairs:
the declarative counterpart of the imperative grouping. -/
def runsGo (s cur : Nat) : List Nat → List (Nat × Nat)
  | [] => [(s, cur)]
  | c' :: rest => if c' = cur + 1 then runsGo s c' rest else (s, cur) :: runsGo c' c' rest

def runsOf : List Nat → List (Nat × Nat)
  | [] => []
  | c :: rest => runsGo c c rest

/-- `(s, e)` is a maximal run of consecutive members of `a`: every line of
`[s..e]` is in `a` and the run extends in neither direction.  Stated with
bounded quantifiers so it is decidable on concrete inputs. -/
def isMaxRun (a : List Nat) (s e : Nat) : Prop :=
  s ≤ e ∧ (∀ j ∈ List.range' s (e + 1 - s), j ∈ a) ∧
    (s = 0 ∨ (s - 1) ∉ a) ∧ (e + 1) ∉ a

instance (a : List Nat) (s e : Nat) : Decidable (isMaxRun a s e) := by
  unfold isMaxRun; infer_instance

/-! ### History reconstructor (`getGitHistory` / `processCommit`,
extension.ts:387-793)

External effects are abstracted by an environment: the outcome of each
filesystem read, JSON parse and `isStashedState` validation, the commit
list `git log` would return (with, per commit, the outcome of
`git show hash:file`), and the outcome of `git status`. -/

/-- `CommitData` (extension.ts:387-393); `date` keeps the raw log date
string fed to `new Date`. -/
structure CommitData where
  commitHash : String
  date : String
  commitMessage : String
  author : String
  panelChats : List PanelChat
  deriving Repr, DecidableEq

structure UncommittedData where
  panelChats : List PanelChat
  deriving Repr, DecidableEq

structure GitHistoryData where
  commits : List CommitData
  uncommitted : Option UncommittedData
  deriving Repr, DecidableEq

/-- The outcome of reading and interpreting the tracked file's content at
some commit (or in the working tree): the `git show`/`fs.readFileSync` read
can fail, `JSON.parse` can throw, `isStashedState` can reject, or a
validated `StashedState` comes out. -/
inductive FileReadResult where
  | notFound
  | unparseable
  | invalidStructure
  | ok (s : StashedState)
  deriving Repr, DecidableEq

/-- One line of `git log --reverse`'s output together with the outcome of
reading the tracked file at that commit. -/
structure CommitEntry where
  commitHash : String
  author : String
  dateStr : String
  commitMessage : String
  readResult : FileReadResult
  deriving Repr, DecidableEq

/-- Outcomes of every external call `getGitHistory` makes, in program
order: the entry `fs.existsSync` check, the current-file read/parse, the
commit list (`none` when `git log` itself fails), the `git status` call
(`statusFails`), whether the status lists the tracked file as
modified/not_added/created, and the second read for uncommitted content. -/
structure GitEnv where
  fileExists : Bool
  currentRead : FileReadResult
  logResult : Option (List CommitEntry)
  statusFails : Bool
  statusHasFile : Bool
  uncommittedRead : FileReadResult
  deriving Repr, DecidableEq

/-- Reading the current file (extension.ts:543-572): any read, parse or
validation failure falls back to the default empty `StashedState` with an
explicit empty ledger. -/
def defaultStashedState : StashedState :=
  { panelChats := [], schemaVersion := "1.0",
    deletedChats := some (DeletedChatsRaw.mk (some []) (some [])) }

def currentStateOf : FileReadResult → StashedState
  | .ok s => s
  | _ => defaultStashedState

/-- The id-collection loop (extension.ts:592-605): ids of messages of
non-deleted chats that are not themselves in the deletion ledger.  A JS
`Set` is modelled by this list used through membership only. -/
def activeMessageIds (s : StashedState) : List String :=
  (s.panelChats.filter
      (fun pc => pc.id ∉ (normDeletedChats s.deletedChats).deletedPanelChatIDs)).flatMap
    (fun pc =>
      (pc.messages.filter
        (fun m => m.id ∉ (normDeletedChats s.deletedChats).deletedMessageIDs)).map
      (fun m => m.id))

/-- The panel-chat ids collected alongside (extension.ts:596-598); computed
by the source but never consulted afterwards. -/
def activePanelChatIds (s : StashedState) : List String :=
  (s.panelChats.filter
      (fun pc => pc.id ∉ (normDeletedChats s.deletedChats).deletedPanelChatIDs)).map
    (fun pc => pc.id)

/-- Append `msg` to the first chat of the list whose id is `cid` (the
mutation through the reference `commitData.panelChats.find(...)` returns). -/
def pushMessageFirst (chats : List PanelChat) (cid : String) (msg : MessageEntry) :
    List PanelChat :=
  match chats with
  | [] => []
  | pc :: rest =>
    if pc.id = cid then { pc with messages := pc.messages ++ [msg] } :: rest
    else pc :: pushMessageFirst rest cid msg

/-- The message loop of `processCommit` (extension.ts:501-516): a message is
pushed into the chat iff its id is active now and unseen so far; a pushed id
joins `seenMessageIds`. -/
def processMessages (currentMessageIds : List String) (cid : String)
    (msgs : List MessageEntry) (st : CommitData × List String) : CommitData × List String :=
  match msgs with
  | [] => st
  | msg :: rest =>
    if msg.id ∈ currentMessageIds ∧ msg.id ∉ st.2 then
      processMessages currentMessageIds cid rest
        ({ st.1 with panelChats := pushMessageFirst st.1.panelChats cid msg },
         st.2 ++ [msg.id])
    else
      processMessages currentMessageIds cid rest st

/-- The chat shell created on first sight of a chat id
(extension.ts:488-497): metadata copied, messages emptied. -/
def chatShell (pc : PanelChat) : PanelChat :=
  { ai_editor := pc.ai_editor, id := pc.id, customTitle := pc.customTitle,
    parent_id := pc.parent_id, created_on := pc.created_on, messages := [] }

/-- One chat of the `processCommit` loop (extension.ts:477-517). -/
def processOneChat (currentMessageIds deletedPanelChatIds : List String)
    (st : CommitData × List String) (pc : PanelChat) : CommitData × List String :=
  if pc.id ∈ deletedPanelChatIds then st
  else
    processMessages currentMessageIds pc.id pc.messages
      (if ∃ q ∈ st.1.panelChats, q.id = pc.id then st.1
       else { st.1 with panelChats := st.1.panelChats ++ [chatShell pc] }, st.2)

/-- `processCommit` (extension.ts:464-518): returns the updated `CommitData`
and the grown `seenMessageIds`.  `currentPanelChatIds` is passed by the
source but unused, so it is omitted here; the commit's own
`deletedMessageIds` set is likewise built but never consulted. -/
def processCommit (parsed : StashedState) (currentMessageIds : List String)
    (seen : List String) (cd : CommitData) : CommitData × List String :=
  parsed.panelChats.foldl
    (processOneChat currentMessageIds (normDeletedChats parsed.deletedChats).deletedPanelChatIDs)
    (cd, seen)

/-- Deletion-only commits skipped by message prefix (extension.ts:632). -/
def isDeletionCommitMessage (msg : String) : Bool :=
  strStartsWith msg "Delete message with ID" || strStartsWith msg "Delete PanelChat with ID"

/-- `allCommitsMap` is a JS `Map` in insertion order: an association list
with unique keys.  `mapLookup` is `Map.get`: the first entry with the key. -/
def mapLookup (m : List (String × CommitData)) (k : String) : Option CommitData :=
  match m with
  | [] => none
  | p :: rest => if p.1 = k then some p.2 else mapLookup rest k

/-- `Map.set`: replace the entry in place, or append a new one. -/
def mapStore (m : List (String × CommitData)) (k : String) (cd : CommitData) :
    List (String × CommitData) :=
  match m with
  | [] => [(k, cd)]
  | p :: rest => if p.1 = k then (k, cd) :: rest else p :: mapStore rest k cd

/-- The fresh `CommitData` built on first sight of a commit hash
(extension.ts:663-672). -/
def freshCommitData (c : CommitEntry) : CommitData :=
  { commitHash := c.commitHash, date := c.dateStr, commitMessage := c.commitMessage,
    author := c.author, panelChats := [] }

/-- `allCommitsMap.get(commitHash)` followed by the on-miss initialisation
(extension.ts:662-672). -/
def walkEntryData (m : List (String × CommitData)) (c : CommitEntry) : CommitData :=
  match mapLookup m c.commitHash with
  | some cd => cd
  | none => freshCommitData c

/-- The per-commit loop of `getGitHistory` (extension.ts:627-677): deletion
commits and commits whose content cannot be read or parsed are skipped;
otherwise the commit's map entry is found or created and `processCommit`
runs on it. -/
def walkCommits (currentMessageIds : List String) :
    List CommitEntry → List (String × CommitData) → List String →
      List (String × CommitData) × List String
  | [], m, seen => (m, seen)
  | c :: rest, m, seen =>
    if isDeletionCommitMessage c.commitMessage then
      walkCommits currentMessageIds rest m seen
    else
      match c.readResult with
      | .ok parsed =>
        walkCommits currentMessageIds rest
          (mapStore m c.commitHash
            (processCommit parsed currentMessageIds seen (walkEntryData m c)).1)
          (processCommit parsed currentMessageIds seen (walkEntryData m c)).2
      | _ => walkCommits currentMessageIds rest m seen

/-- The uncommitted aggregation (extension.ts:754-768): non-deleted chats of
the working copy, restricted to messages that are neither in the working
copy's ledger nor inactive now, chats left empty dropped. -/
def uncommittedChats (s : StashedState) (currentMessageIds : List String) :
    List PanelChat :=
  ((s.panelChats.filter
      (fun pc => pc.id ∉ (normDeletedChats s.deletedChats).deletedPanelChatIDs)).map
    (fun pc =>
      { pc with messages := (pc.messages.filter
          (fun m => m.id ∉ (normDeletedChats s.deletedChats).deletedMessageIDs
            ∧ m.id ∈ currentMessageIds)) })).filter
    (fun pc => 0 < pc.messages.length)

/-- The commit list `getGitHistory` builds (extension.ts:624-684): the walk
from an empty map and an empty seen-set, this map's values in insertion
order, restricted to commits having some chat with at least one message. -/
def historyCommits (currentMessageIds : List String) (entries : List CommitEntry) :
    List CommitData :=
  ((walkCommits currentMessageIds entries [] []).1.map (fun p => p.2)).filter
    (fun cd => cd.panelChats.any (fun pc => 0 < pc.messages.length))

/-- The `uncommitted` component (extension.ts:695-780): present only when
the status lists the tracked file and some chat survives the filters. -/
def historyUncommitted (env : GitEnv) (currentMessageIds : List String) :
    Option UncommittedData :=
  if env.statusHasFile then
    if 0 < (uncommittedChats (currentStateOf env.uncommittedRead) currentMessageIds).length then
      some ⟨uncommittedChats (currentStateOf env.uncommittedRead) currentMessageIds⟩
    else none
  else none

/-- `getGitHistory` (extension.ts:526-793).  Throws (`Except.error`) exactly
where the source does: the entry existence check, `git log`, and
`git status`; the walk itself is pure, so the source's interleaving of the
walk with the status call is observationally the composition below. -/
def getGitHistory (env : GitEnv) : Except String GitHistoryData :=
  if env.fileExists = false then .error "File not found"
  else
    match env.logResult with
    | none => .error "Failed to retrieve git log"
    | some entries =>
      if env.statusFails then .error "Failed to retrieve git status"
      else
        .ok ⟨historyCommits (activeMessageIds (currentStateOf env.currentRead)) entries,
             historyUncommitted env (activeMessageIds (currentStateOf env.currentRead))⟩

/-- The commit list of a successful `getGitHistory` run. -/
def getGitHistoryCommits (env : GitEnv) : List CommitData :=
  match getGitHistory env with
  | .ok h => h.commits
  | .error _ => []

/-- A commit of the walk that is neither skipped as a deletion commit nor
skipped for a read/parse/validation failure, together with its content. -/
def processableContent (c : CommitEntry) : Option StashedState :=
  if isDeletionCommitMessage c.commitMessage then none
  else match c.readResult with
    | .ok s => some s
    | _ => none

/-- A commit entry the per-commit loop skips because of a failure (content
missing at that revision, unparseable, or structurally invalid) — as opposed
to the deliberate deletion-commit skip. -/
def isFailureSkip (c : CommitEntry) : Bool :=
  !isDeletionCommitMessage c.commitMessage &&
    (c.readResult = FileReadResult.notFound || c.readResult = FileReadResult.unparseable
      || c.readResult = FileReadResult.invalidStructure)

/-- Message id `m` appears in `s` inside a chat not deleted by `s`'s own
ledger — the situation in which `processCommit` can attribute it. -/
def appearsActive (s : StashedState) (m : String) : Prop :=
  ∃ pc ∈ s.panelChats,
    pc.id ∉ (normDeletedChats s.deletedChats).deletedPanelChatIDs ∧
      ∃ msg ∈ pc.messages, msg.id = m

instance (s : StashedState) (m : String) : Decidable (appearsActive s m) := by
  unfold appearsActive; infer_instance

/-- A `CommitData` contains a message with id `m`. -/
def cdContainsMsg (cd : CommitData) (m : String) : Prop :=
  ∃ pc ∈ cd.panelChats, ∃ msg ∈ pc.messages, msg.id = m

instance (cd : CommitData) (m : String) : Decidable (cdContainsMsg cd m) := by
  unfold cdContainsMsg; infer_instance

/-- Number of messages with id `m` in a chat. -/
def msgCountPC (pc : PanelChat) (m : String) : Nat :=
  pc.messages.countP (fun msg => msg.id = m)

/-- Number of messages with id `m` across a list of chats. -/
def msgCountChats (chats : List PanelChat) (m : String) : Nat :=
  (chats.map (fun pc => msgCountPC pc m)).sum

/-- Number of messages with id `m` across a commit's chats. -/
def msgCountCD (cd : CommitData) (m : String) : Nat :=
  msgCountChats cd.panelChats m

/-- Number of messages with id `m` stored at key `k` of the commit map. -/
def countKey (m : List (String × CommitData)) (k : String) (msg : String) : Nat :=
  match mapLookup m k with
  | some cd => msgCountCD cd msg
  | none => 0

/-! ### Snapshot store (`writeChatToStashedState`, gait_context.md:1101-1113)
and the `added`/`uncommitted` aggregation of the `gait_context.md` variant of
`getGitHistory` (gait_context.md:515-575). -/

/-- Apply `f` to the first chat of the list whose id is `cid`
(`findIndex` + in-place update). -/
def modifyFirstChat (chats : List PanelChat) (cid : String) (f : PanelChat → PanelChat) :
    List PanelChat :=
  match chats with
  | [] => []
  | pc :: rest =>
    if pc.id = cid then f pc :: rest else pc :: modifyFirstChat rest cid f

/-- `writeChatToStashedState` (gait_context.md:1101-1113) on the state it
reads and re-persists: on an existing chat id, append only the messages of
`newChat` whose id the stored chat does not already contain; otherwise push
`newChat` whole. -/
def writeChatToStashedState (s : StashedState) (newChat : PanelChat) : StashedState :=
  if ∃ c ∈ s.panelChats, c.id = newChat.id then
    { s with panelChats := (modifyFirstChat s.panelChats newChat.id
        (fun existingChat =>
          { existingChat with messages := (existingChat.messages ++
              newChat.messages.filter
                (fun msg => ¬ ∃ em ∈ existingChat.messages, em.id = msg.id)) })) }
  else
    { s with panelChats := s.panelChats ++ [newChat] }

/-- The update applied by `writeChatToStashedState` to the stored chat that
shares the incoming chat's id (the inner callback of gait_context.md:1105-1110),
named so that lemmas can speak about it. -/
def appendMissing (newChat : PanelChat) (existingChat : PanelChat) : PanelChat :=
  { existingChat with messages := (existingChat.messages ++
      newChat.messages.filter
        (fun msg => ¬ ∃ em ∈ existingChat.messages, em.id = msg.id)) }

/-- Messages with id `m` across every chat of the state whose id is `cid`. -/
def stateChatMsgCount (s : StashedState) (cid m : String) : Nat :=
  ((s.panelChats.filter (fun pc => pc.id = cid)).map (fun pc => msgCountPC pc m)).sum

/-- The `added` aggregation of the `gait_context.md` variant
(gait_context.md:515-535): sequential over chats because each chat adds all
its message ids to `seenMessageIds` after computing its own filter.  Returns
the surviving chats and the grown seen-set. -/
def addedChatsCtx (chats : List PanelChat) (deletedPanelChatIds deletedMessageIds : List String)
    (seen : List String) : List PanelChat × List String :=
  (((chats.filter (fun pc => pc.id ∉ deletedPanelChatIds)).foldl
      (fun (acc : List PanelChat × List String) pc =>
        (acc.1 ++ [{ pc with messages := (pc.messages.filter
            (fun msg => msg.id ∉ deletedMessageIds ∧ msg.id ∉ acc.2)) }],
         acc.2 ++ pc.messages.map (fun msg => msg.id)))
      ([], seen)).1.filter (fun pc => 0 < pc.messages.length),
   ((chats.filter (fun pc => pc.id ∉ deletedPanelChatIds)).foldl
      (fun (acc : List PanelChat × List String) pc =>
        (acc.1 ++ [{ pc with messages := (pc.messages.filter
            (fun msg => msg.id ∉ deletedMessageIds ∧ msg.id ∉ acc.2)) }],
         acc.2 ++ pc.messages.map (fun msg => msg.id)))
      ([], seen)).2)

/-- The `uncommitted` aggregation of the `gait_context.md` variant
(gait_context.md:557-568). -/
def uncommittedChatsCtx (chats : List PanelChat)
    (deletedPanelChatIds deletedMessageIds seen : List String) : List PanelChat :=
  ((chats.filter (fun pc => pc.id ∉ deletedPanelChatIds)).map
    (fun pc =>
      { pc with messages := (pc.messages.filter
          (fun msg => msg.id ∉ deletedMessageIds ∧ msg.id ∉ seen)) })).filter
    (fun pc => 0 < pc.messages.length)

/-- Structural invariant of the commit map: keys are distinct and each
stored `CommitData` carries its key as `commitHash`. -/
def mapWF (m : List (String × CommitData)) : Prop :=
  (m.map (fun p => p.1)).Nodup ∧ ∀ p ∈ m, p.2.commitHash = p.1

/-! ### Concrete instances used in counterexamples and witnesses -/

def cexChatA : PanelChat :=
  ⟨"vscode", "A", "t", none, "2024", [⟨"m1", "q", "r"⟩]⟩

def cexChatB : PanelChat :=
  ⟨"vscode", "B", "t", none, "2024", [⟨"m2", "q", "r"⟩]⟩

/-- A current snapshot holding only `cexChatA` (so `m1` is active, `m2` is
not), with an explicit empty ledger. -/
def cexCurState : StashedState :=
  ⟨[cexChatA], "1.0", some ⟨some [], some []⟩⟩

/-- A historical snapshot holding both chats, with no `deletedChats` field. -/
def cexCommitState : StashedState :=
  ⟨[cexChatA, cexChatB], "1.0", none⟩

def cexEntry1 : CommitEntry :=
  ⟨"h1", "au", "2024-01", "add chats", .ok cexCommitState⟩

def cexEntry2 : CommitEntry :=
  ⟨"h2", "au", "2024-02", "retain chats", .ok cexCommitState⟩

/-- One commit whose snapshot has a chat with an active message and a chat
whose only message is inactive. -/
def envPrune : GitEnv :=
  ⟨true, .ok cexCurState, some [cexEntry1], false, false, .notFound⟩

/-- Two commits both containing message `m1`. -/
def envEarliest : GitEnv :=
  ⟨true, .ok cexCurState, some [cexEntry1, cexEntry2], false, false, .notFound⟩

/-- File present, log retrievable, but `git status` fails. -/
def envStatusFail : GitEnv :=
  ⟨true, .ok cexCurState, some [cexEntry1], true, false, .notFound⟩

/-- A current snapshot whose ledger deletes `m1` while chat `A` still
physically holds it; the uncommitted read sees the same state. -/
def cexDeletedState : StashedState :=
  ⟨[cexChatA], "1.0", some ⟨some ["m1"], some []⟩⟩

def envDeleted : GitEnv :=
  ⟨true, .ok cexDeletedState, some [cexEntry1, cexEntry2], false, true, .ok cexDeletedState⟩

/-- The `CommitData` that `envPrune`'s walk produces: chat `A` with its
active message, chat `B` as an empty shell. -/
def cdPrune : CommitData :=
  ⟨"h1", "2024-01", "add chats", "au", [cexChatA, ⟨"vscode", "B", "t", none, "2024", []⟩]⟩

/-! ## Lemmas: the range matcher

The imperative run-grouping loop (`processRuns`) is related to the
declarative decomposition into maximal runs (`runsOf`), and the accepted
lines are characterised. -/

theorem processRuns_none (text : String) (diff : List DiffChange) (c : Nat) (rest : List Nat) :
    processRuns text diff (c :: rest) none = processRuns text diff (c :: rest) (some c) := by
  cases rest <;> simp [processRuns]

theorem processRuns_go (text : String) (diff : List DiffChange) :
    ∀ (rest : List Nat) (s c : Nat),
      processRuns text diff (c :: rest) (some s)
        = (runsGo s c rest).flatMap (fun p => runClose text diff p.1 p.2) := by
  intro rest
  induction rest with
  | nil => intro s c; simp [processRuns, runsGo]
  | cons c' rest ih =>
    intro s c
    by_cases h : c' = c + 1
    · simp [processRuns, runsGo, h, ih]
    · simp [processRuns, runsGo, h, processRuns_none, ih]

theorem processRuns_eq_runsOf (text : String) (diff : List DiffChange) (a : List Nat) :
    processRuns text diff a none
      = (runsOf a).flatMap (fun p => runClose text diff p.1 p.2) := by
  cases a with
  | nil => simp [processRuns, runsOf]
  | cons c rest => rw [processRuns_none, processRuns_go]; rfl

theorem runClose_mem {text : String} {diff : List DiffChange} {s e : Nat} {r : LineRange}
    (h : r ∈ runClose text diff s e) :
    ∃ j, s ≤ j ∧ j ≤ e ∧ r = mkLineRange text j := by
  unfold runClose at h
  split at h
  · obtain ⟨j, hj, rfl⟩ := List.mem_map.1 h
    rw [List.mem_range'_1] at hj
    exact ⟨j, by omega, by omega, rfl⟩
  · split at h
    · next hmc =>
      split at h
      · rcases List.mem_singleton.1 h with rfl
        refine ⟨s, le_rfl, ?_, rfl⟩
        by_contra he
        have h0 : e + 1 - s = 0 := by omega
        simp [meaningfulCount, h0] at hmc
      · exact absurd h (List.not_mem_nil r)
    · exact absurd h (List.not_mem_nil r)

theorem coversLine_mkLineRange {text : String} {j j' : Nat} :
    coversLine (mkLineRange text j) j' ↔ j' = j := by
  simp only [coversLine, mkLineRange]
  omega

theorem coveredBy_runClose {text : String} {diff : List DiffChange} {s e j : Nat} :
    coveredBy (runClose text diff s e) j ↔
      (2 ≤ meaningfulCount text s e ∧ s ≤ j ∧ j ≤ e) ∨
        (meaningfulCount text s e = 1 ∧ j = s ∧
          occCount text diff (strTrim ((docLinesOf text).getD s "")) = 1 ∧
          isMeaningfulLine (strTrim ((docLinesOf text).getD s "")) = true) := by
  unfold coveredBy runClose
  split
  · next h1 =>
    constructor
    · rintro ⟨r, hr, hcov⟩
      obtain ⟨k, hk, rfl⟩ := List.mem_map.1 hr
      rw [coversLine_mkLineRange] at hcov
      subst hcov
      rw [List.mem_range'_1] at hk
      exact Or.inl ⟨h1, by omega, by omega⟩
    · rintro (⟨_, hsj, hje⟩ | ⟨hmc, _, _⟩)
      · refine ⟨mkLineRange text j, List.mem_map_of_mem _ ?_, coversLine_mkLineRange.2 rfl⟩
        rw [List.mem_range'_1]
        omega
      · omega
  · next h1 =>
    split
    · next hmc =>
      split
      · next hcond =>
        constructor
        · rintro ⟨r, hr, hcov⟩
          rcases List.mem_singleton.1 hr with rfl
          rw [coversLine_mkLineRange] at hcov
          exact Or.inr ⟨hmc, hcov, hcond.1, hcond.2⟩
        · rintro (⟨h2, _, _⟩ | ⟨_, hjs, _, _⟩)
          · omega
          · exact ⟨mkLineRange text s, List.mem_singleton_self _, coversLine_mkLineRange.2 hjs⟩
      · next hcond =>
        constructor
        · rintro ⟨r, hr, _⟩
          exact absurd hr (List.not_mem_nil r)
        · rintro (⟨h2, _, _⟩ | ⟨_, _, hocc, hml⟩)
          · omega
          · exact absurd ⟨hocc, hml⟩ hcond
    · next hmc =>
      constructor
      · rintro ⟨r, hr, _⟩
        exact absurd hr (List.not_mem_nil r)
      · rintro (⟨h2, _, _⟩ | ⟨h2, _, _, _⟩) <;> omega

theorem runsGo_mem : ∀ (rest : List Nat) (s cur : Nat), s ≤ cur →
    ∀ p ∈ runsGo s cur rest, p.1 ≤ p.2 ∧
      ∀ j, p.1 ≤ j → j ≤ p.2 → (s ≤ j ∧ j ≤ cur) ∨ j ∈ rest := by
  intro rest
  induction rest with
  | nil =>
    intro s cur hsc p hp
    simp only [runsGo, List.mem_singleton] at hp
    subst hp
    exact ⟨hsc, fun j h1 h2 => Or.inl ⟨h1, h2⟩⟩
  | cons c' rest ih =>
    intro s cur hsc p hp
    simp only [runsGo] at hp
    by_cases h : c' = cur + 1
    · rw [if_pos h] at hp
      obtain ⟨hle, hmem⟩ := ih s c' (by omega) p hp
      refine ⟨hle, fun j h1 h2 => ?_⟩
      rcases hmem j h1 h2 with ⟨hj1, hj2⟩ | hj
      · by_cases hj3 : j ≤ cur
        · exact Or.inl ⟨hj1, hj3⟩
        · have : j = c' := by omega
          exact Or.inr (this ▸ List.mem_cons_self c' rest)
      · exact Or.inr (List.mem_cons_of_mem c' hj)
    · rw [if_neg h] at hp
      rcases List.mem_cons.1 hp with rfl | hp
      · exact ⟨hsc, fun j h1 h2 => Or.inl ⟨h1, h2⟩⟩
      · obtain ⟨hle, hmem⟩ := ih c' c' le_rfl p hp
        refine ⟨hle, fun j h1 h2 => ?_⟩
        rcases hmem j h1 h2 with ⟨hj1, hj2⟩ | hj
        · have : j = c' := by omega
          exact Or.inr (this ▸ List.mem_cons_self c' rest)
        · exact Or.inr (List.mem_cons_of_mem c' hj)

theorem runsGo_max : ∀ (rest : List Nat) (s cur : Nat), s ≤ cur →
    (∀ x ∈ rest, cur < x) → rest.Pairwise (· < ·) →
    ∀ p ∈ runsGo s cur rest,
      (¬ ((s ≤ p.2 + 1 ∧ p.2 + 1 ≤ cur) ∨ p.2 + 1 ∈ rest)) ∧
        (p.1 = 0 ∨ ¬ ((s ≤ p.1 - 1 ∧ p.1 - 1 ≤ cur) ∨ p.1 - 1 ∈ rest)) := by
  intro rest
  induction rest with
  | nil =>
    intro s cur hsc _ _ p hp
    simp only [runsGo, List.mem_singleton] at hp
    subst hp
    constructor
    · rintro (⟨_, h2⟩ | h)
      · omega
      · exact (List.not_mem_nil _) h
    · rcases Nat.eq_zero_or_pos s with h0 | hpos
      · exact Or.inl h0
      · refine Or.inr ?_
        rintro (⟨h1, _⟩ | h)
        · omega
        · exact (List.not_mem_nil _) h
  | cons c' rest ih =>
    intro s cur hsc hgt hpw p hp
    simp only [runsGo] at hp
    have hgt' : ∀ x ∈ rest, c' < x := (List.pairwise_cons.1 hpw).1
    have hpw' : rest.Pairwise (· < ·) := (List.pairwise_cons.1 hpw).2
    have hcc : cur < c' := hgt c' (List.mem_cons_self _ _)
    by_cases h : c' = cur + 1
    · rw [if_pos h] at hp
      obtain ⟨hmax2, hmax1⟩ := ih s c' (by omega) hgt' hpw' p hp
      obtain ⟨hle, hmem⟩ := runsGo_mem rest s c' (by omega) p hp
      have hs1 : s ≤ p.1 := by
        rcases hmem p.1 le_rfl hle with ⟨h1, _⟩ | h1
        · exact h1
        · have := hgt' _ h1; omega
      constructor
      · rintro (⟨ha, hb⟩ | hc)
        · exact hmax2 (Or.inl ⟨ha, by omega⟩)
        · rcases List.mem_cons.1 hc with he | he
          · exact hmax2 (Or.inl ⟨by omega, by omega⟩)
          · exact hmax2 (Or.inr he)
      · rcases hmax1 with h0 | hmax1
        · exact Or.inl h0
        · refine Or.inr ?_
          rintro (⟨ha, hb⟩ | hc)
          · exact hmax1 (Or.inl ⟨ha, by omega⟩)
          · rcases List.mem_cons.1 hc with he | he
            · exact hmax1 (Or.inl ⟨by omega, by omega⟩)
            · exact hmax1 (Or.inr he)
    · rw [if_neg h] at hp
      have hc2 : cur + 1 < c' := by omega
      rcases List.mem_cons.1 hp with rfl | hp
      · constructor
        · rintro (⟨ha, hb⟩ | hc)
          · omega
          · rcases List.mem_cons.1 hc with he | he
            · omega
            · have := hgt' _ he; omega
        · rcases Nat.eq_zero_or_pos s with h0 | hpos
          · exact Or.inl h0
          · refine Or.inr ?_
            rintro (⟨ha, hb⟩ | hc)
            · omega
            · rcases List.mem_cons.1 hc with he | he
              · omega
              · have := hgt' _ he; omega
      · obtain ⟨hmax2, hmax1⟩ := ih c' c' le_rfl hgt' hpw' p hp
        obtain ⟨hle, hmem⟩ := runsGo_mem rest c' c' le_rfl p hp
        have hp1 : c' ≤ p.1 := by
          rcases hmem p.1 le_rfl hle with ⟨h1, _⟩ | h1
          · exact h1
          · have := hgt' _ h1; omega
        constructor
        · rintro (⟨ha, hb⟩ | hc)
          · omega
          · rcases List.mem_cons.1 hc with he | he
            · omega
            · exact hmax2 (Or.inr he)
        · rcases hmax1 with h0 | hmax1
          · exact Or.inl h0
          · refine Or.inr ?_
            rintro (⟨ha, hb⟩ | hc)
            · omega
            · rcases List.mem_cons.1 hc with he | he
              · exact hmax1 (Or.inl ⟨by omega, by omega⟩)
              · exact hmax1 (Or.inr he)

theorem runsGo_complete : ∀ (rest : List Nat) (s cur : Nat), s ≤ cur →
    (∀ x ∈ rest, cur < x) → rest.Pairwise (· < ·) →
    ∀ s' e', s' ≤ e' →
      (∀ j, s' ≤ j → j ≤ e' → (s ≤ j ∧ j ≤ cur) ∨ j ∈ rest) →
      (s' = 0 ∨ ¬ ((s ≤ s' - 1 ∧ s' - 1 ≤ cur) ∨ s' - 1 ∈ rest)) →
      (¬ ((s ≤ e' + 1 ∧ e' + 1 ≤ cur) ∨ e' + 1 ∈ rest)) →
      (s', e') ∈ runsGo s cur rest := by
  intro rest
  induction rest with
  | nil =>
    intro s cur hsc _ _ s' e' hse hmem hleft hright
    have hs' : s ≤ s' ∧ s' ≤ cur := by
      rcases hmem s' le_rfl hse with h | h
      · exact h
      · exact absurd h (List.not_mem_nil _)
    have he' : s ≤ e' ∧ e' ≤ cur := by
      rcases hmem e' hse le_rfl with h | h
      · exact h
      · exact absurd h (List.not_mem_nil _)
    have hs'eq : s' = s := by
      by_contra hne
      have h1 : s < s' := by omega
      rcases hleft with h0 | h0
      · omega
      · exact h0 (Or.inl ⟨by omega, by omega⟩)
    have he'eq : e' = cur := by
      by_contra hne
      have h1 : e' < cur := by omega
      exact hright (Or.inl ⟨by omega, by omega⟩)
    rw [hs'eq, he'eq]
    simp [runsGo]
  | cons c' rest ih =>
    intro s cur hsc hgt hpw s' e' hse hmem hleft hright
    have hgt' : ∀ x ∈ rest, c' < x := (List.pairwise_cons.1 hpw).1
    have hpw' : rest.Pairwise (· < ·) := (List.pairwise_cons.1 hpw).2
    have hcc : cur < c' := hgt c' (List.mem_cons_self _ _)
    by_cases h : c' = cur + 1
    · simp only [runsGo, if_pos h]
      apply ih s c' (by omega) (fun x hx => by have := hgt' x hx; omega) hpw' s' e' hse
      · intro j hj1 hj2
        rcases hmem j hj1 hj2 with ⟨h1, h2⟩ | hj
        · exact Or.inl ⟨h1, by omega⟩
        · rcases List.mem_cons.1 hj with he | he
          · exact Or.inl ⟨by omega, by omega⟩
          · exact Or.inr he
      · rcases hleft with h0 | h0
        · exact Or.inl h0
        · refine Or.inr ?_
          rintro (⟨ha, hb⟩ | hc)
          · by_cases hb2 : s' - 1 ≤ cur
            · exact h0 (Or.inl ⟨ha, hb2⟩)
            · have he2 : s' - 1 = c' := by omega
              exact h0 (Or.inr (he2 ▸ List.mem_cons_self _ _))
          · exact h0 (Or.inr (List.mem_cons_of_mem _ hc))
      · rintro (⟨ha, hb⟩ | hc)
        · by_cases hb2 : e' + 1 ≤ cur
          · exact hright (Or.inl ⟨ha, hb2⟩)
          · have he2 : e' + 1 = c' := by omega
            exact hright (Or.inr (he2 ▸ List.mem_cons_self _ _))
        · exact hright (Or.inr (List.mem_cons_of_mem _ hc))
    · have hc2 : cur + 1 < c' := by omega
      simp only [runsGo, if_neg h]
      have hnotc : ¬ ((s ≤ cur + 1 ∧ cur + 1 ≤ cur) ∨ cur + 1 ∈ c' :: rest) := by
        rintro (⟨_, hb⟩ | hc)
        · omega
        · rcases List.mem_cons.1 hc with he | he
          · omega
          · have := hgt' _ he; omega
      by_cases hcase : e' ≤ cur
      · have hsub : ∀ j, s' ≤ j → j ≤ e' → s ≤ j ∧ j ≤ cur := by
          intro j hj1 hj2
          rcases hmem j hj1 hj2 with h1 | h1
          · exact h1
          · rcases List.mem_cons.1 h1 with he | he
            · omega
            · have := hgt' _ he; omega
        have hs1 := hsub s' le_rfl hse
        have hs'eq : s' = s := by
          by_contra hne
          have h1 : s < s' := by omega
          rcases hleft with h0 | h0
          · omega
          · exact h0 (Or.inl ⟨by omega, by omega⟩)
        have he'eq : e' = cur := by
          by_contra hne
          have h1 : e' < cur := by omega
          exact hright (Or.inl ⟨by omega, by omega⟩)
        rw [hs'eq, he'eq]
        exact List.mem_cons_self _ _
      · have hs'gt : cur + 1 < s' := by
          by_contra hle2
          have h1 : s' ≤ cur + 1 := by omega
          have h2 : cur + 1 ≤ e' := by omega
          exact hnotc (hmem (cur + 1) h1 h2)
        have hs'c : c' ≤ s' := by
          rcases hmem s' le_rfl hse with ⟨h1, h2⟩ | h1
          · omega
          · rcases List.mem_cons.1 h1 with he | he
            · omega
            · have := hgt' _ he; omega
        refine List.mem_cons_of_mem _ (ih c' c' le_rfl hgt' hpw' s' e' hse ?_ ?_ ?_)
        · intro j hj1 hj2
          rcases hmem j hj1 hj2 with ⟨h1, h2⟩ | h1
          · omega
          · rcases List.mem_cons.1 h1 with he | he
            · exact Or.inl ⟨by omega, by omega⟩
            · exact Or.inr he
        · rcases hleft with h0 | h0
          · omega
          · refine Or.inr ?_
            rintro (⟨ha, hb⟩ | hc)
            · have he2 : s' - 1 = c' := by omega
              exact h0 (Or.inr (he2 ▸ List.mem_cons_self _ _))
            · exact h0 (Or.inr (List.mem_cons_of_mem _ hc))
        · rintro (⟨ha, hb⟩ | hc)
          · omega
          · exact hright (Or.inr (List.mem_cons_of_mem _ hc))

theorem isMaxRun_mem {a : List Nat} {s e : Nat} (h : isMaxRun a s e) :
    ∀ j, s ≤ j → j ≤ e → j ∈ a := by
  intro j h1 h2
  exact h.2.1 j (by rw [List.mem_range'_1]; omega)

theorem maxRun_unique {a : List Nat} {s e s' e' j : Nat}
    (h1 : isMaxRun a s e) (h2 : isMaxRun a s' e')
    (hj1 : s ≤ j) (hj2 : j ≤ e) (hj3 : s' ≤ j) (hj4 : j ≤ e') : s = s' ∧ e = e' := by
  constructor
  · by_contra hne
    rcases Nat.lt_or_ge s s' with hlt | hge
    · have hm : s' - 1 ∈ a := isMaxRun_mem h1 _ (by omega) (by omega)
      rcases h2.2.2.1 with h0 | h0
      · omega
      · exact h0 hm
    · have hlt : s' < s := by omega
      have hm : s - 1 ∈ a := isMaxRun_mem h2 _ (by omega) (by omega)
      rcases h1.2.2.1 with h0 | h0
      · omega
      · exact h0 hm
  · by_contra hne
    rcases Nat.lt_or_ge e e' with hlt | hge
    · have hm : e + 1 ∈ a := isMaxRun_mem h2 _ (by omega) (by omega)
      exact h1.2.2.2 hm
    · have hlt : e' < e := by omega
      have hm : e' + 1 ∈ a := isMaxRun_mem h1 _ (by omega) (by omega)
      exact h2.2.2.2 hm

theorem runsOf_maxRun_iff {a : List Nat} (ha : a.Pairwise (· < ·)) (p : Nat × Nat) :
    p ∈ runsOf a ↔ isMaxRun a p.1 p.2 := by
  cases a with
  | nil =>
    simp only [runsOf, List.not_mem_nil, false_iff]
    rintro ⟨hle, hmem, _, _⟩
    have hm : p.1 ∈ ([] : List Nat) := hmem p.1 (by rw [List.mem_range'_1]; omega)
    exact absurd hm (List.not_mem_nil _)
  | cons c rest =>
    have hgt : ∀ x ∈ rest, c < x := (List.pairwise_cons.1 ha).1
    have hpw : rest.Pairwise (· < ·) := (List.pairwise_cons.1 ha).2
    constructor
    · intro hp
      obtain ⟨hle, hmem⟩ := runsGo_mem rest c c le_rfl p hp
      obtain ⟨hmax2, hmax1⟩ := runsGo_max rest c c le_rfl hgt hpw p hp
      refine ⟨hle, ?_, ?_, ?_⟩
      · intro j hj
        rw [List.mem_range'_1] at hj
        rcases hmem j (by omega) (by omega) with ⟨h1, h2⟩ | h1
        · have he : j = c := by omega
          exact he ▸ List.mem_cons_self _ _
        · exact List.mem_cons_of_mem _ h1
      · rcases hmax1 with h0 | h0
        · exact Or.inl h0
        · refine Or.inr ?_
          intro hc
          rcases List.mem_cons.1 hc with he | he
          · exact h0 (Or.inl ⟨le_of_eq he.symm, le_of_eq he⟩)
          · exact h0 (Or.inr he)
      · intro hc
        rcases List.mem_cons.1 hc with he | he
        · exact hmax2 (Or.inl ⟨le_of_eq he.symm, le_of_eq he⟩)
        · exact hmax2 (Or.inr he)
    · rintro ⟨hle, hmem, hleft, hright⟩
      have hmem' : ∀ j, p.1 ≤ j → j ≤ p.2 → j ∈ c :: rest := by
        intro j hj1 hj2
        exact hmem j (by rw [List.mem_range'_1]; omega)
      have hgoal : (p.1, p.2) ∈ runsGo c c rest := by
        apply runsGo_complete rest c c le_rfl hgt hpw p.1 p.2 hle
        · intro j hj1 hj2
          rcases List.mem_cons.1 (hmem' j hj1 hj2) with he | he
          · exact Or.inl ⟨le_of_eq he.symm, le_of_eq he⟩
          · exact Or.inr he
        · rcases hleft with h0 | h0
          · exact Or.inl h0
          · refine Or.inr ?_
            rintro (⟨ha1, hb1⟩ | hc1)
            · have he2 : p.1 - 1 = c := by omega
              exact h0 (he2 ▸ List.mem_cons_self _ _)
            · exact h0 (List.mem_cons_of_mem _ hc1)
        · rintro (⟨ha1, hb1⟩ | hc1)
          · have he2 : p.2 + 1 = c := by omega
            exact hright (he2 ▸ List.mem_cons_self _ _)
          · exact hright (List.mem_cons_of_mem _ hc1)
      exact hgoal

theorem matching_pairwise (text : String) (diff : List DiffChange) :
    (matchingLineNumbers text diff).Pairwise (· < ·) :=
  (List.pairwise_lt_range _).sublist (List.filter_sublist _)

theorem mem_matching {text : String} {diff : List DiffChange} {j : Nat} :
    j ∈ matchingLineNumbers text diff ↔
      j < (docLinesOf text).length ∧ strTrim ((docLinesOf text).getD j "") ∈ addedSet diff := by
  simp [matchingLineNumbers, List.mem_filter, List.mem_range]

theorem coveredBy_flatMap {rs : List (Nat × Nat)} {f : Nat × Nat → List LineRange} {j : Nat} :
    coveredBy (rs.flatMap f) j ↔ ∃ p ∈ rs, coveredBy (f p) j := by
  unfold coveredBy
  constructor
  · rintro ⟨r, hr, hcov⟩
    obtain ⟨p, hp, hrf⟩ := List.mem_flatMap.1 hr
    exact ⟨p, hp, r, hrf, hcov⟩
  · rintro ⟨p, hp, r, hrf, hcov⟩
    exact ⟨r, List.mem_flatMap.2 ⟨p, hp, hrf⟩, hcov⟩

theorem matchDiff_large {text : String} {diff : List DiffChange}
    (h5 : 5 ≤ (addedSet diff).length) :
    matchDiffToCurrentFile text diff
      = (runsOf (matchingLineNumbers text diff)).flatMap
          (fun p => runClose text diff p.1 p.2) := by
  unfold matchDiffToCurrentFile
  rw [if_neg (by omega), if_neg (by omega)]
  exact processRuns_eq_runsOf text diff _

theorem matchDiff_mem_shape {text : String} {diff : List DiffChange} {r : LineRange}
    (h : r ∈ matchDiffToCurrentFile text diff) :
    ∃ k, k ∈ matchingLineNumbers text diff ∧ r = mkLineRange text k := by
  unfold matchDiffToCurrentFile at h
  split at h
  · exact absurd h (List.not_mem_nil r)
  · split at h
    · obtain ⟨k, hk, rfl⟩ := List.mem_map.1 h
      exact ⟨k, List.mem_of_mem_filter hk, rfl⟩
    · rw [processRuns_eq_runsOf] at h
      obtain ⟨p, hp, hr⟩ := List.mem_flatMap.1 h
      obtain ⟨k, h1k, h2k, rfl⟩ := runClose_mem hr
      have hmax : isMaxRun (matchingLineNumbers text diff) p.1 p.2 :=
        (runsOf_maxRun_iff (matching_pairwise text diff) p).1 hp
      exact ⟨k, isMaxRun_mem hmax k h1k h2k, rfl⟩

theorem coveredBy_map_mkLineRange {text : String} {l : List Nat} {j : Nat} :
    coveredBy (l.map (mkLineRange text)) j ↔ j ∈ l := by
  unfold coveredBy
  constructor
  · rintro ⟨r, hr, hcov⟩
    obtain ⟨k, hk, rfl⟩ := List.mem_map.1 hr
    rwa [coversLine_mkLineRange.1 hcov]
  · intro hj
    exact ⟨mkLineRange text j, List.mem_map_of_mem _ hj, coversLine_mkLineRange.2 rfl⟩

theorem large_run_line_mem {text : String} {diff : List DiffChange} {s e j : Nat}
    (h5 : 5 ≤ (addedSet diff).length)
    (hrun : isMaxRun (matchingLineNumbers text diff) s e)
    (hmc : 2 ≤ meaningfulCount text s e) (hj1 : s ≤ j) (hj2 : j ≤ e) :
    mkLineRange text j ∈ matchDiffToCurrentFile text diff := by
  rw [matchDiff_large h5]
  refine List.mem_flatMap.2 ⟨(s, e), ?_, ?_⟩
  · exact (runsOf_maxRun_iff (matching_pairwise text diff) (s, e)).2 hrun
  · unfold runClose
    rw [if_pos hmc]
    exact List.mem_map_of_mem _ (by rw [List.mem_range'_1]; omega)

/-! ## Claim theorems: the range matcher -/

/-- C4: on the large-change path (5 or more distinct added lines), for every
maximal run of consecutive matching line indices: with at least 2
alphanumeric-bearing lines every line of the run is part of the result; with
exactly 1 the run contributes only its first line, and only when that line's
trimmed text occurs exactly once and passes the meaningful-line test; with 0
the run contributes nothing. -/
theorem large_run_acceptance (text : String) (diff : List DiffChange) (s e : Nat)
    (h5 : 5 ≤ (addedSet diff).length)
    (hrun : isMaxRun (matchingLineNumbers text diff) s e) :
    (2 ≤ meaningfulCount text s e →
      ∀ j, s ≤ j → j ≤ e → coveredBy (matchDiffToCurrentFile text diff) j) ∧
    (meaningfulCount text s e = 1 →
      ∀ j, s ≤ j → j ≤ e → coveredBy (matchDiffToCurrentFile text diff) j →
        j = s ∧ occCount text diff (strTrim ((docLinesOf text).getD s "")) = 1 ∧
          isMeaningfulLine (strTrim ((docLinesOf text).getD s "")) = true) ∧
    (meaningfulCount text s e = 0 →
      ∀ j, s ≤ j → j ≤ e → ¬ coveredBy (matchDiffToCurrentFile text diff) j) := by
  have hpw := matching_pairwise text diff
  refine ⟨?_, ?_, ?_⟩
  · intro hmc j hj1 hj2
    exact ⟨mkLineRange text j, large_run_line_mem h5 hrun hmc hj1 hj2,
      coversLine_mkLineRange.2 rfl⟩
  · intro hmc j hj1 hj2 hcov
    rw [matchDiff_large h5] at hcov
    obtain ⟨p, hp, hcovp⟩ := coveredBy_flatMap.1 hcov
    have hmax : isMaxRun (matchingLineNumbers text diff) p.1 p.2 :=
      (runsOf_maxRun_iff hpw p).1 hp
    rcases coveredBy_runClose.1 hcovp with ⟨hmc2, hpj1, hpj2⟩ | ⟨hmc1, hjp, hocc, hml⟩
    · obtain ⟨hs, he⟩ := maxRun_unique hmax hrun hpj1 hpj2 hj1 hj2
      rw [hs, he] at hmc2
      omega
    · have h0 := hmax.1
      have hps : p.1 ≤ j := by omega
      have hpe : j ≤ p.2 := by omega
      obtain ⟨hs, he⟩ := maxRun_unique hmax hrun hps hpe hj1 hj2
      rw [hs] at hocc hml
      exact ⟨by omega, hocc, hml⟩
  · intro hmc j hj1 hj2 hcov
    rw [matchDiff_large h5] at hcov
    obtain ⟨p, hp, hcovp⟩ := coveredBy_flatMap.1 hcov
    have hmax : isMaxRun (matchingLineNumbers text diff) p.1 p.2 :=
      (runsOf_maxRun_iff hpw p).1 hp
    rcases coveredBy_runClose.1 hcovp with ⟨hmc2, hpj1, hpj2⟩ | ⟨hmc1, hjp, _, _⟩
    · obtain ⟨hs, he⟩ := maxRun_unique hmax hrun hpj1 hpj2 hj1 hj2
      rw [hs, he] at hmc2
      omega
    · have h0 := hmax.1
      have hps : p.1 ≤ j := by omega
      have hpe : j ≤ p.2 := by omega
      obtain ⟨hs, he⟩ := maxRun_unique hmax hrun hps hpe hj1 hj2
      rw [hs, he] at hmc1
      omega

/-- Witness for C4: a file and a diff with 5 distinct added lines, whose
maximal run `[0..1]` has 2 meaningful lines, so line 1 is covered, and whose
maximal run `[3..3]` has 1 meaningful line, so any covered line of it is
line 3 with a unique, meaningful trimmed text. -/
theorem large_run_acceptance_witness :
    (5 ≤ (addedSet [⟨"a1\nb2\nc3\nd4\ne5", true, false⟩]).length ∧
      isMaxRun (matchingLineNumbers "a1\nb2\nx\nc3" [⟨"a1\nb2\nc3\nd4\ne5", true, false⟩]) 0 1 ∧
      2 ≤ meaningfulCount "a1\nb2\nx\nc3" 0 1) ∧
    coveredBy (matchDiffToCurrentFile "a1\nb2\nx\nc3" [⟨"a1\nb2\nc3\nd4\ne5", true, false⟩]) 1 := by
  refine ⟨⟨by decide, by decide, by decide⟩, ?_⟩
  exact (large_run_acceptance "a1\nb2\nx\nc3" [⟨"a1\nb2\nc3\nd4\ne5", true, false⟩] 0 1
    (by decide) (by decide)).1 (by decide) 1 (by decide) (by decide)

/-- C5: on the small-change path (1 to 4 distinct added lines), a line is
covered by the result exactly when its trimmed text is one of the added
lines, it is meaningful (alphanumeric, not an import), and its trimmed text
occurs exactly once among the file's matching lines; every returned range is
a single line. -/
theorem small_change_path (text : String) (diff : List DiffChange)
    (h1 : 1 ≤ (addedSet diff).length) (h4 : (addedSet diff).length < 5) :
    (∀ j, coveredBy (matchDiffToCurrentFile text diff) j ↔
      (j < (docLinesOf text).length ∧
        strTrim ((docLinesOf text).getD j "") ∈ addedSet diff ∧
        isMeaningfulLine ((docLinesOf text).getD j "") = true ∧
        occCount text diff (strTrim ((docLinesOf text).getD j "")) = 1)) ∧
    (∀ r ∈ matchDiffToCurrentFile text diff, r.startLine = r.endLine) := by
  have heq : matchDiffToCurrentFile text diff
      = ((matchingLineNumbers text diff).filter
          (fun j => isMeaningfulLine ((docLinesOf text).getD j "")
            && (occCount text diff (strTrim ((docLinesOf text).getD j "")) == 1))).map
          (mkLineRange text) := by
    unfold matchDiffToCurrentFile
    rw [if_neg (by omega), if_pos (by omega)]
  constructor
  · intro j
    rw [heq, coveredBy_map_mkLineRange, List.mem_filter]
    rw [mem_matching]
    constructor
    · rintro ⟨⟨hlen, hmem⟩, hpred⟩
      simp only [Bool.and_eq_true, beq_iff_eq] at hpred
      exact ⟨hlen, hmem, hpred.1, hpred.2⟩
    · rintro ⟨hlen, hmem, hml, hocc⟩
      refine ⟨⟨hlen, hmem⟩, ?_⟩
      simp only [Bool.and_eq_true, beq_iff_eq]
      exact ⟨hml, hocc⟩
  · intro r hr
    rw [heq] at hr
    obtain ⟨k, _, rfl⟩ := List.mem_map.1 hr
    rfl

/-- Witness for C5: a 3-distinct-line change against a file in which `foo1`
occurs twice and `bar2` once: line 1 (`bar2`) is covered, line 0 (`foo1`)
is not. -/
theorem small_change_path_witness :
    (1 ≤ (addedSet [⟨"foo1\nbar2\nbaz3", true, false⟩]).length ∧
      (addedSet [⟨"foo1\nbar2\nbaz3", true, false⟩]).length < 5) ∧
    coveredBy (matchDiffToCurrentFile "foo1\nbar2\nfoo1\nqux" [⟨"foo1\nbar2\nbaz3", true, false⟩]) 1 ∧
    ¬ coveredBy (matchDiffToCurrentFile "foo1\nbar2\nfoo1\nqux" [⟨"foo1\nbar2\nbaz3", true, false⟩]) 0 := by
  refine ⟨⟨by decide, by decide⟩, ?_, ?_⟩
  · exact ((small_change_path "foo1\nbar2\nfoo1\nqux" [⟨"foo1\nbar2\nbaz3", true, false⟩]
      (by decide) (by decide)).1 1).2 (by decide)
  · intro hcov
    have h := ((small_change_path "foo1\nbar2\nfoo1\nqux" [⟨"foo1\nbar2\nbaz3", true, false⟩]
      (by decide) (by decide)).1 0).1 hcov
    revert h
    decide

/-- C10 (implicit): every line covered by a returned range is a matching
line — its trimmed text belongs to the set of distinct, non-blank, trimmed
added lines — and an empty added-line set yields no ranges. -/
theorem matcher_soundness (text : String) (diff : List DiffChange) :
    (∀ r ∈ matchDiffToCurrentFile text diff, ∀ j, coversLine r j →
      j < (docLinesOf text).length ∧
        strTrim ((docLinesOf text).getD j "") ∈ addedSet diff) ∧
    (addedSet diff = [] → matchDiffToCurrentFile text diff = []) := by
  constructor
  · intro r hr j hcov
    obtain ⟨k, hk, rfl⟩ := matchDiff_mem_shape hr
    rw [coversLine_mkLineRange] at hcov
    subst hcov
    exact mem_matching.1 hk
  · intro h
    unfold matchDiffToCurrentFile
    rw [if_pos (by simp [h])]

/-- Witness for C10: on the concrete large-change input, the ranges cover
lines 0, 1 and 3 only, and each covered line's trimmed text is an added
line; the empty diff yields no ranges. -/
theorem matcher_soundness_witness :
    (⟨0, 0, 0, 2⟩ : LineRange) ∈
        matchDiffToCurrentFile "a1\nb2\nx\nc3" [⟨"a1\nb2\nc3\nd4\ne5", true, false⟩] ∧
    coversLine (⟨0, 0, 0, 2⟩ : LineRange) 0 ∧
    (0 < (docLinesOf "a1\nb2\nx\nc3").length ∧
      strTrim ((docLinesOf "a1\nb2\nx\nc3").getD 0 "")
        ∈ addedSet [⟨"a1\nb2\nc3\nd4\ne5", true, false⟩]) ∧
    matchDiffToCurrentFile "a1\nb2\nx\nc3" [] = [] := by
  refine ⟨by decide, by decide, ?_, ?_⟩
  · exact (matcher_soundness "a1\nb2\nx\nc3" [⟨"a1\nb2\nc3\nd4\ne5", true, false⟩]).1
      ⟨0, 0, 0, 2⟩ (by decide) 0 (by decide)
  · exact (matcher_soundness "a1\nb2\nx\nc3" []).2 (by decide)

/-- Counterexample to C6: the maximal run `[0..1]` is accepted (2 meaningful
lines), yet the output holds the two adjacent accepted lines as two separate
single-line ranges and no range `[0,1]` at all — the matcher never merges a
run into one multi-line range. -/
theorem merged_range_counterexample :
    isMaxRun (matchingLineNumbers "a1\nb2\nx\nc3" [⟨"a1\nb2\nc3\nd4\ne5", true, false⟩]) 0 1 ∧
    5 ≤ (addedSet [⟨"a1\nb2\nc3\nd4\ne5", true, false⟩]).length ∧
    2 ≤ meaningfulCount "a1\nb2\nx\nc3" 0 1 ∧
    matchDiffToCurrentFile "a1\nb2\nx\nc3" [⟨"a1\nb2\nc3\nd4\ne5", true, false⟩]
      = [⟨0, 0, 0, 2⟩, ⟨1, 0, 1, 2⟩, ⟨3, 0, 3, 2⟩] ∧
    ¬ (∃ r ∈ matchDiffToCurrentFile "a1\nb2\nx\nc3" [⟨"a1\nb2\nc3\nd4\ne5", true, false⟩],
        r.startLine = 0 ∧ r.endLine = 1) := by
  refine ⟨by decide, by decide, by decide, by decide, by decide⟩

/-- C6 amended: every returned range is a single-line `[j, j]` range (from
column 0 to the line's length) over a matching line; for a maximal run
accepted wholesale (at least 2 meaningful lines) on the large-change path,
every line of the run appears as its own single-line range — runs are
covered completely, but as per-line ranges, never as one merged range. -/
theorem range_output_shape_amended (text : String) (diff : List DiffChange) :
    (∀ r ∈ matchDiffToCurrentFile text diff,
      r.startLine = r.endLine ∧ r.startChar = 0 ∧
        r.endChar = ((docLinesOf text).getD r.startLine "").length ∧
        r.startLine ∈ matchingLineNumbers text diff) ∧
    (5 ≤ (addedSet diff).length →
      ∀ s e, isMaxRun (matchingLineNumbers text diff) s e →
        2 ≤ meaningfulCount text s e →
        ∀ j, s ≤ j → j ≤ e → mkLineRange text j ∈ matchDiffToCurrentFile text diff) := by
  constructor
  · intro r hr
    obtain ⟨k, hk, rfl⟩ := matchDiff_mem_shape hr
    exact ⟨rfl, rfl, rfl, hk⟩
  · intro h5 s e hrun hmc j hj1 hj2
    exact large_run_line_mem h5 hrun hmc hj1 hj2

/-- Witness for the amended C6: on the concrete input, the range for line 0
is single-line and line 1 of the accepted run `[0..1]` appears as its own
range. -/
theorem range_output_shape_amended_witness :
    ((⟨0, 0, 0, 2⟩ : LineRange).startLine = (⟨0, 0, 0, 2⟩ : LineRange).endLine) ∧
    mkLineRange "a1\nb2\nx\nc3" 1 ∈
      matchDiffToCurrentFile "a1\nb2\nx\nc3" [⟨"a1\nb2\nc3\nd4\ne5", true, false⟩] := by
  refine ⟨rfl, ?_⟩
  exact (range_output_shape_amended "a1\nb2\nx\nc3" [⟨"a1\nb2\nc3\nd4\ne5", true, false⟩]).2
    (by decide) 0 1 (by decide) (by decide) 1 (by decide) (by decide)

/-! ## Lemmas: `processCommit`

How one commit's processing changes the per-id message count of the
`CommitData` under construction and the `seenMessageIds` accumulator. -/

theorem pushMessageFirst_count {chats : List PanelChat} {cid : String}
    (msg : MessageEntry) (m : String) (h : ∃ pc ∈ chats, pc.id = cid) :
    msgCountChats (pushMessageFirst chats cid msg) m
      = msgCountChats chats m + (if msg.id = m then 1 else 0) := by
  induction chats with
  | nil => simp at h
  | cons pc rest ih =>
    by_cases hid : pc.id = cid
    · simp only [pushMessageFirst, if_pos hid, msgCountChats, List.map_cons, List.sum_cons,
        msgCountPC, List.countP_append]
      have hone : List.countP (fun msg' => decide (msg'.id = m)) [msg]
          = if msg.id = m then 1 else 0 := by
        simp [List.countP_cons]
      rw [hone]
      omega
    · have h' : ∃ q ∈ rest, q.id = cid := by
        obtain ⟨q, hq, hqid⟩ := h
        rcases List.mem_cons.1 hq with rfl | hq'
        · exact absurd hqid hid
        · exact ⟨q, hq', hqid⟩
      simp only [pushMessageFirst, if_neg hid, msgCountChats, List.map_cons, List.sum_cons]
      have := ih h'
      simp only [msgCountChats] at this
      omega

theorem pushMessageFirst_ids (chats : List PanelChat) (cid : String) (msg : MessageEntry) :
    (pushMessageFirst chats cid msg).map (fun pc => pc.id)
      = chats.map (fun pc => pc.id) := by
  induction chats with
  | nil => rfl
  | cons pc rest ih =>
    by_cases hid : pc.id = cid
    · simp [pushMessageFirst, hid]
    · simp [pushMessageFirst, hid, ih]

theorem processMessages_spec (ids : List String) (cid m : String) :
    ∀ (msgs : List MessageEntry) (st : CommitData × List String),
      (∃ pc ∈ st.1.panelChats, pc.id = cid) →
      (msgCountChats (processMessages ids cid msgs st).1.panelChats m
          = msgCountChats st.1.panelChats m
            + (if m ∈ ids ∧ m ∉ st.2 ∧ (∃ msg ∈ msgs, msg.id = m) then 1 else 0)) ∧
      (m ∈ (processMessages ids cid msgs st).2 ↔
        m ∈ st.2 ∨ (m ∈ ids ∧ ∃ msg ∈ msgs, msg.id = m)) ∧
      (∀ x ∈ st.2, x ∈ (processMessages ids cid msgs st).2) ∧
      ((processMessages ids cid msgs st).1.commitHash = st.1.commitHash) ∧
      ((processMessages ids cid msgs st).1.panelChats.map (fun pc => pc.id)
          = st.1.panelChats.map (fun pc => pc.id)) := by
  intro msgs
  induction msgs with
  | nil =>
    intro st _
    simp [processMessages]
  | cons msg rest ih =>
    intro st hch
    obtain ⟨pc0, hpc0, hpc0id⟩ := hch
    rw [processMessages]
    by_cases hcond : msg.id ∈ ids ∧ msg.id ∉ st.2
    · rw [if_pos hcond]
      have hch' : ∃ pc ∈ pushMessageFirst st.1.panelChats cid msg, pc.id = cid := by
        have h1 : cid ∈ (pushMessageFirst st.1.panelChats cid msg).map (fun pc => pc.id) := by
          rw [pushMessageFirst_ids]
          exact List.mem_map.2 ⟨pc0, hpc0, hpc0id⟩
        exact List.mem_map.1 h1
      obtain ⟨ihc, ihs, ihsub, ihh, ihids⟩ :=
        ih ({ st.1 with panelChats := pushMessageFirst st.1.panelChats cid msg },
            st.2 ++ [msg.id]) hch'
      dsimp only at ihc ihs ihsub ihh ihids
      have hpush := @pushMessageFirst_count st.1.panelChats cid msg m
        ⟨pc0, hpc0, hpc0id⟩
      have hseen' : ∀ x, x ∈ st.2 ++ [msg.id] ↔ (x ∈ st.2 ∨ x = msg.id) := by
        intro x
        simp [List.mem_append]
      refine ⟨?_, ?_, ?_, ihh, by rw [ihids]; exact pushMessageFirst_ids _ _ _⟩
      · rw [ihc, hpush]
        by_cases hm : msg.id = m
        · rw [if_pos hm]
          have hc1 : ¬ (m ∈ ids ∧ m ∉ st.2 ++ [msg.id] ∧ (∃ msg' ∈ rest, msg'.id = m)) := by
            rintro ⟨_, hns, _⟩
            exact hns ((hseen' m).2 (Or.inr hm.symm))
          have hc2 : m ∈ ids ∧ m ∉ st.2 ∧ (∃ msg' ∈ msg :: rest, msg'.id = m) := by
            refine ⟨by rw [← hm]; exact hcond.1, by rw [← hm]; exact hcond.2,
              msg, List.mem_cons_self _ _, hm⟩
          rw [if_neg hc1, if_pos hc2]
        · rw [if_neg hm]
          have hiff : (m ∈ ids ∧ m ∉ st.2 ++ [msg.id] ∧ (∃ msg' ∈ rest, msg'.id = m))
              ↔ (m ∈ ids ∧ m ∉ st.2 ∧ (∃ msg' ∈ msg :: rest, msg'.id = m)) := by
            constructor
            · rintro ⟨h1, h2, msg', hm1, hm2⟩
              exact ⟨h1, fun hx => h2 ((hseen' m).2 (Or.inl hx)),
                msg', List.mem_cons_of_mem _ hm1, hm2⟩
            · rintro ⟨h1, h2, msg', hm1, hm2⟩
              refine ⟨h1, fun hx => ?_, ?_⟩
              · rcases (hseen' m).1 hx with hx' | hx'
                · exact h2 hx'
                · exact hm hx'.symm
              · rcases List.mem_cons.1 hm1 with rfl | hm1'
                · exact absurd hm2 hm
                · exact ⟨msg', hm1', hm2⟩
          rw [if_congr hiff rfl rfl]
          omega
      · rw [ihs]
        constructor
        · rintro (hx | ⟨h1, msg', hm1, hm2⟩)
          · rcases (hseen' m).1 hx with hx' | hx'
            · exact Or.inl hx'
            · exact Or.inr ⟨by rw [hx']; exact hcond.1, msg, List.mem_cons_self _ _, hx'.symm⟩
          · exact Or.inr ⟨h1, msg', List.mem_cons_of_mem _ hm1, hm2⟩
        · rintro (hx | ⟨h1, msg', hm1, hm2⟩)
          · exact Or.inl ((hseen' m).2 (Or.inl hx))
          · rcases List.mem_cons.1 hm1 with rfl | hm1'
            · exact Or.inl ((hseen' m).2 (Or.inr hm2.symm))
            · exact Or.inr ⟨h1, msg', hm1', hm2⟩
      · intro x hx
        exact ihsub x (List.mem_append_left _ hx)
    · rw [if_neg hcond]
      obtain ⟨ihc, ihs, ihsub, ihh, ihids⟩ := ih st ⟨pc0, hpc0, hpc0id⟩
      refine ⟨?_, ?_, ihsub, ihh, ihids⟩
      · rw [ihc]
        by_cases hm : msg.id = m
        · have hA : ¬ (m ∈ ids ∧ m ∉ st.2 ∧ (∃ msg' ∈ rest, msg'.id = m)) := by
            rintro ⟨h1, h2, _⟩
            exact hcond ⟨by rw [hm]; exact h1, by rw [hm]; exact h2⟩
          have hB : ¬ (m ∈ ids ∧ m ∉ st.2 ∧ (∃ msg' ∈ msg :: rest, msg'.id = m)) := by
            rintro ⟨h1, h2, _⟩
            exact hcond ⟨by rw [hm]; exact h1, by rw [hm]; exact h2⟩
          rw [if_neg hA, if_neg hB]
        · have hiff : (m ∈ ids ∧ m ∉ st.2 ∧ (∃ msg' ∈ rest, msg'.id = m))
              ↔ (m ∈ ids ∧ m ∉ st.2 ∧ (∃ msg' ∈ msg :: rest, msg'.id = m)) := by
            constructor
            · rintro ⟨h1, h2, msg', hm1, hm2⟩
              exact ⟨h1, h2, msg', List.mem_cons_of_mem _ hm1, hm2⟩
            · rintro ⟨h1, h2, msg', hm1, hm2⟩
              rcases List.mem_cons.1 hm1 with rfl | hm1'
              · exact absurd hm2 hm
              · exact ⟨h1, h2, msg', hm1', hm2⟩
          rw [if_congr hiff rfl rfl]
      · rw [ihs]
        constructor
        · rintro (hx | ⟨h1, msg', hm1, hm2⟩)
          · exact Or.inl hx
          · exact Or.inr ⟨h1, msg', List.mem_cons_of_mem _ hm1, hm2⟩
        · rintro (hx | ⟨h1, msg', hm1, hm2⟩)
          · exact Or.inl hx
          · rcases List.mem_cons.1 hm1 with heq | hm1'
            · by_cases hmi : msg.id ∈ st.2
              · refine Or.inl ?_
                rw [← hm2, heq]
                exact hmi
              · refine absurd ⟨?_, hmi⟩ hcond
                rw [← heq, hm2]
                exact h1
            · exact Or.inr ⟨h1, msg', hm1', hm2⟩

theorem msgCountChats_append_shell (chats : List PanelChat) (pc : PanelChat) (m : String) :
    msgCountChats (chats ++ [chatShell pc]) m = msgCountChats chats m := by
  simp [msgCountChats, msgCountPC, chatShell]

theorem processOneChat_spec (ids dPC : List String) (m : String)
    (st : CommitData × List String) (pc : PanelChat) :
    (msgCountChats (processOneChat ids dPC st pc).1.panelChats m
        = msgCountChats st.1.panelChats m
          + (if pc.id ∉ dPC ∧ m ∈ ids ∧ m ∉ st.2 ∧ (∃ msg ∈ pc.messages, msg.id = m)
             then 1 else 0)) ∧
    (m ∈ (processOneChat ids dPC st pc).2 ↔
      m ∈ st.2 ∨ (pc.id ∉ dPC ∧ m ∈ ids ∧ ∃ msg ∈ pc.messages, msg.id = m)) ∧
    (∀ x ∈ st.2, x ∈ (processOneChat ids dPC st pc).2) ∧
    ((processOneChat ids dPC st pc).1.commitHash = st.1.commitHash) := by
  unfold processOneChat
  by_cases hdel : pc.id ∈ dPC
  · rw [if_pos hdel]
    refine ⟨?_, ?_, fun x hx => hx, rfl⟩
    · rw [if_neg (fun hy => hy.1 hdel)]
      omega
    · constructor
      · exact Or.inl
      · rintro (hx | ⟨hnd, _, _⟩)
        · exact hx
        · exact absurd hdel hnd
  · rw [if_neg hdel]
    by_cases hex : ∃ q ∈ st.1.panelChats, q.id = pc.id
    · rw [if_pos hex]
      obtain ⟨pmc, pms, pmsub, pmh, _⟩ :=
        processMessages_spec ids pc.id m pc.messages (st.1, st.2) hex
      dsimp only at pmc pms pmsub pmh
      refine ⟨?_, ?_, pmsub, pmh⟩
      · rw [pmc]
        have hiff : (m ∈ ids ∧ m ∉ st.2 ∧ (∃ msg ∈ pc.messages, msg.id = m))
            ↔ (pc.id ∉ dPC ∧ m ∈ ids ∧ m ∉ st.2 ∧ (∃ msg ∈ pc.messages, msg.id = m)) := by
          constructor
          · exact fun h => ⟨hdel, h⟩
          · exact fun h => h.2
        rw [if_congr hiff rfl rfl]
      · rw [pms]
        constructor
        · rintro (hx | ⟨h1, h2⟩)
          · exact Or.inl hx
          · exact Or.inr ⟨hdel, h1, h2⟩
        · rintro (hx | ⟨_, h1, h2⟩)
          · exact Or.inl hx
          · exact Or.inr ⟨h1, h2⟩
    · rw [if_neg hex]
      have hex' : ∃ q ∈ st.1.panelChats ++ [chatShell pc], q.id = pc.id :=
        ⟨chatShell pc, List.mem_append_right _ (List.mem_singleton_self _), rfl⟩
      obtain ⟨pmc, pms, pmsub, pmh, _⟩ :=
        processMessages_spec ids pc.id m pc.messages
          ({ st.1 with panelChats := st.1.panelChats ++ [chatShell pc] }, st.2) hex'
      dsimp only at pmc pms pmsub pmh
      refine ⟨?_, ?_, pmsub, pmh⟩
      · rw [pmc, msgCountChats_append_shell]
        have hiff : (m ∈ ids ∧ m ∉ st.2 ∧ (∃ msg ∈ pc.messages, msg.id = m))
            ↔ (pc.id ∉ dPC ∧ m ∈ ids ∧ m ∉ st.2 ∧ (∃ msg ∈ pc.messages, msg.id = m)) := by
          constructor
          · exact fun h => ⟨hdel, h⟩
          · exact fun h => h.2
        rw [if_congr hiff rfl rfl]
      · rw [pms]
        constructor
        · rintro (hx | ⟨h1, h2⟩)
          · exact Or.inl hx
          · exact Or.inr ⟨hdel, h1, h2⟩
        · rintro (hx | ⟨_, h1, h2⟩)
          · exact Or.inl hx
          · exact Or.inr ⟨h1, h2⟩

theorem chatFold_spec (ids dPC : List String) (m : String) :
    ∀ (l : List PanelChat) (st : CommitData × List String),
      (msgCountChats (l.foldl (processOneChat ids dPC) st).1.panelChats m
          = msgCountChats st.1.panelChats m
            + (if m ∈ ids ∧ m ∉ st.2 ∧
                  (∃ pc ∈ l, pc.id ∉ dPC ∧ ∃ msg ∈ pc.messages, msg.id = m)
               then 1 else 0)) ∧
      (m ∈ (l.foldl (processOneChat ids dPC) st).2 ↔
        m ∈ st.2 ∨ (m ∈ ids ∧ ∃ pc ∈ l, pc.id ∉ dPC ∧ ∃ msg ∈ pc.messages, msg.id = m)) ∧
      (∀ x ∈ st.2, x ∈ (l.foldl (processOneChat ids dPC) st).2) ∧
      ((l.foldl (processOneChat ids dPC) st).1.commitHash = st.1.commitHash) := by
  intro l
  induction l with
  | nil =>
    intro st
    simp
  | cons pc l ih =>
    intro st
    rw [List.foldl_cons]
    obtain ⟨pcc, pcs, pcsub, pch⟩ := processOneChat_spec ids dPC m st pc
    obtain ⟨ihc, ihs, ihsub, ihh⟩ := ih (processOneChat ids dPC st pc)
    refine ⟨?_, ?_, fun x hx => ihsub x (pcsub x hx), by rw [ihh, pch]⟩
    · rw [ihc, pcc]
      by_cases hA : pc.id ∉ dPC ∧ m ∈ ids ∧ m ∉ st.2 ∧ (∃ msg ∈ pc.messages, msg.id = m)
      · rw [if_pos hA]
        have hseen : m ∈ (processOneChat ids dPC st pc).2 :=
          pcs.2 (Or.inr ⟨hA.1, hA.2.1, hA.2.2.2⟩)
        rw [if_neg (fun hy => hy.2.1 hseen),
          if_pos ⟨hA.2.1, hA.2.2.1, pc, List.mem_cons_self _ _, hA.1, hA.2.2.2⟩]
      · rw [if_neg hA]
        by_cases hB : m ∈ ids ∧ m ∉ st.2 ∧
            (∃ pc' ∈ l, pc'.id ∉ dPC ∧ ∃ msg ∈ pc'.messages, msg.id = m)
        · have hs' : m ∉ (processOneChat ids dPC st pc).2 := by
            intro hx
            rcases pcs.1 hx with hx' | ⟨hnd, hin, hmsg⟩
            · exact hB.2.1 hx'
            · exact hA ⟨hnd, hin, hB.2.1, hmsg⟩
          have hex2 : ∃ pc' ∈ pc :: l, pc'.id ∉ dPC ∧ ∃ msg ∈ pc'.messages, msg.id = m := by
            obtain ⟨pc', h1, h2, h3⟩ := hB.2.2
            exact ⟨pc', List.mem_cons_of_mem _ h1, h2, h3⟩
          rw [if_pos ⟨hB.1, hs', hB.2.2⟩, if_pos ⟨hB.1, hB.2.1, hex2⟩]
        · have hc1 : ¬ (m ∈ ids ∧ m ∉ (processOneChat ids dPC st pc).2 ∧
              (∃ pc' ∈ l, pc'.id ∉ dPC ∧ ∃ msg ∈ pc'.messages, msg.id = m)) := by
            rintro ⟨h1, h2, h3⟩
            exact hB ⟨h1, fun hx => h2 (pcsub m hx), h3⟩
          have hc2 : ¬ (m ∈ ids ∧ m ∉ st.2 ∧
              (∃ pc' ∈ pc :: l, pc'.id ∉ dPC ∧ ∃ msg ∈ pc'.messages, msg.id = m)) := by
            rintro ⟨h1, h2, pc', hm1, hm2, hm3⟩
            rcases List.mem_cons.1 hm1 with heq | hm1'
            · exact hA ⟨heq ▸ hm2, h1, h2, heq ▸ hm3⟩
            · exact hB ⟨h1, h2, pc', hm1', hm2, hm3⟩
          rw [if_neg hc1, if_neg hc2]
    · rw [ihs, pcs]
      constructor
      · rintro ((hx | ⟨hnd, h1, h2⟩) | ⟨h1, pc', hm1, hm2, hm3⟩)
        · exact Or.inl hx
        · exact Or.inr ⟨h1, pc, List.mem_cons_self _ _, hnd, h2⟩
        · exact Or.inr ⟨h1, pc', List.mem_cons_of_mem _ hm1, hm2, hm3⟩
      · rintro (hx | ⟨h1, pc', hm1, hm2, hm3⟩)
        · exact Or.inl (Or.inl hx)
        · rcases List.mem_cons.1 hm1 with heq | hm1'
          · exact Or.inl (Or.inr ⟨heq ▸ hm2, h1, heq ▸ hm3⟩)
          · exact Or.inr ⟨h1, pc', hm1', hm2, hm3⟩

theorem processCommit_spec (parsed : StashedState) (ids : List String) (m : String)
    (seen : List String) (cd : CommitData) :
    (msgCountCD (processCommit parsed ids seen cd).1 m
        = msgCountCD cd m + (if m ∈ ids ∧ m ∉ seen ∧ appearsActive parsed m then 1 else 0)) ∧
    (m ∈ (processCommit parsed ids seen cd).2 ↔
      m ∈ seen ∨ (m ∈ ids ∧ appearsActive parsed m)) ∧
    (∀ x ∈ seen, x ∈ (processCommit parsed ids seen cd).2) ∧
    ((processCommit parsed ids seen cd).1.commitHash = cd.commitHash) := by
  have h := chatFold_spec ids (normDeletedChats parsed.deletedChats).deletedPanelChatIDs m
    parsed.panelChats (cd, seen)
  obtain ⟨hc, hs, hsub, hh⟩ := h
  dsimp only at hc hs hsub hh
  exact ⟨hc, hs, hsub, hh⟩

/-! ## Lemmas: the commit map and the walk -/

theorem mapLookup_store (mp : List (String × CommitData)) (k : String) (cd : CommitData) :
    ∀ k', mapLookup (mapStore mp k cd) k' = if k' = k then some cd else mapLookup mp k' := by
  induction mp with
  | nil =>
    intro k'
    by_cases h : k' = k
    · subst h
      simp [mapStore, mapLookup]
    · have hne : ¬ k = k' := fun he => h he.symm
      simp [mapStore, mapLookup, hne, h]
  | cons p rest ih =>
    intro k'
    by_cases hp : p.1 = k
    · rw [mapStore, if_pos hp]
      by_cases h : k' = k
      · subst h
        simp [mapLookup]
      · have hne : ¬ k = k' := fun he => h he.symm
        have hne2 : ¬ p.1 = k' := by
          rw [hp]
          exact hne
        rw [mapLookup, if_neg hne, mapLookup, if_neg hne2, if_neg h]
  
    · rw [mapStore, if_neg hp]
      by_cases hh : p.1 = k'
      · have h : ¬ k' = k := by
          intro he
          exact hp (he ▸ hh)
        rw [mapLookup, if_pos hh, if_neg h, mapLookup, if_pos hh]
      · rw [mapLookup, if_neg hh, ih k']
        by_cases h : k' = k
        · rw [if_pos h, if_pos h]
        · rw [if_neg h, if_neg h, mapLookup, if_neg hh]

theorem mapLookup_mem : ∀ {mp : List (String × CommitData)} {k : String} {cd : CommitData},
    mapLookup mp k = some cd → (k, cd) ∈ mp := by
  intro mp
  induction mp with
  | nil =>
    intro k cd h
    exact absurd h (by simp [mapLookup])
  | cons p rest ih =>
    intro k cd h
    rw [mapLookup] at h
    by_cases hp : p.1 = k
    · rw [if_pos hp] at h
      have heq : (k, cd) = p := by
        rw [← hp, ← Option.some.inj h]
      exact heq ▸ List.mem_cons_self _ _
    · rw [if_neg hp] at h
      exact List.mem_cons_of_mem _ (ih h)

theorem mapLookup_eq_some_of_mem :
    ∀ (mp : List (String × CommitData)) (k : String) (cd : CommitData),
      (mp.map (fun p => p.1)).Nodup → (k, cd) ∈ mp → mapLookup mp k = some cd := by
  intro mp
  induction mp with
  | nil =>
    intro k cd _ h
    exact absurd h (List.not_mem_nil _)
  | cons p rest ih =>
    intro k cd hnd hmem
    rw [List.map_cons] at hnd
    have hnd1 := List.nodup_cons.1 hnd
    rcases List.mem_cons.1 hmem with heq | hmem'
    · rw [← heq, mapLookup, if_pos rfl]
    · have hne : p.1 ≠ k := by
        intro he
        exact hnd1.1 (he ▸ List.mem_map.2 ⟨(k, cd), hmem', rfl⟩)
      rw [mapLookup, if_neg hne]
      exact ih k cd hnd1.2 hmem'

theorem mapStore_keys_sub :
    ∀ (mp : List (String × CommitData)) (k : String) (cd : CommitData) (x : String),
      x ∈ (mapStore mp k cd).map (fun p => p.1) → x = k ∨ x ∈ mp.map (fun p => p.1) := by
  intro mp
  induction mp with
  | nil =>
    intro k cd x hx
    simp [mapStore] at hx
    exact Or.inl hx
  | cons p rest ih =>
    intro k cd x hx
    by_cases hp : p.1 = k
    · rw [mapStore, if_pos hp] at hx
      rw [List.map_cons] at hx
      rcases List.mem_cons.1 hx with he | hx'
      · exact Or.inl he
      · exact Or.inr (List.mem_cons_of_mem _ hx')
    · rw [mapStore, if_neg hp] at hx
      rw [List.map_cons] at hx
      rcases List.mem_cons.1 hx with he | hx'
      · exact Or.inr (he ▸ List.mem_cons_self _ _)
      · rcases ih k cd x hx' with h | h
        · exact Or.inl h
        · exact Or.inr (List.mem_cons_of_mem _ h)

theorem mapWF_store :
    ∀ (mp : List (String × CommitData)) (k : String) (cd : CommitData),
      mapWF mp → cd.commitHash = k → mapWF (mapStore mp k cd) := by
  intro mp
  induction mp with
  | nil =>
    intro k cd _ hcd
    constructor
    · simp [mapStore]
    · intro p hp
      rw [mapStore] at hp
      rcases List.mem_singleton.1 hp with rfl
      exact hcd
  | cons q rest ih =>
    intro k cd hwf hcd
    obtain ⟨hnd, hhash⟩ := hwf
    rw [List.map_cons] at hnd
    have hnd1 := List.nodup_cons.1 hnd
    by_cases h : q.1 = k
    · rw [mapStore, if_pos h]
      constructor
      · rw [List.map_cons]
        exact List.nodup_cons.2 ⟨h ▸ hnd1.1, hnd1.2⟩
      · intro p hp
        rcases List.mem_cons.1 hp with heq | hp'
        · rw [heq]
          exact hcd
        · exact hhash p (List.mem_cons_of_mem _ hp')
    · rw [mapStore, if_neg h]
      have hwk : mapWF rest := ⟨hnd1.2, fun p hp => hhash p (List.mem_cons_of_mem _ hp)⟩
      obtain ⟨ihnd, ihhash⟩ := ih k cd hwk hcd
      constructor
      · rw [List.map_cons]
        refine List.nodup_cons.2 ⟨?_, ihnd⟩
        intro hmem
        rcases mapStore_keys_sub rest k cd q.1 hmem with he | he
        · exact h he
        · exact hnd1.1 he
      · intro p hp
        rcases List.mem_cons.1 hp with heq | hp'
        · rw [heq]
          exact hhash q (List.mem_cons_self _ _)
        · exact ihhash p hp'

theorem walkEntryData_hash {mp : List (String × CommitData)} {c : CommitEntry}
    (hwf : mapWF mp) : (walkEntryData mp c).commitHash = c.commitHash := by
  unfold walkEntryData
  cases hl : mapLookup mp c.commitHash with
  | none => rfl
  | some cd => exact hwf.2 _ (mapLookup_mem hl)

theorem countKey_walkEntry (mp : List (String × CommitData)) (c : CommitEntry) (m : String) :
    msgCountCD (walkEntryData mp c) m = countKey mp c.commitHash m := by
  unfold walkEntryData countKey
  cases mapLookup mp c.commitHash with
  | none => simp [msgCountCD, msgCountChats, freshCommitData]
  | some cd => rfl

theorem countKey_store (mp : List (String × CommitData)) (k : String) (cd : CommitData)
    (m : String) : ∀ k', countKey (mapStore mp k cd) k' m
      = if k' = k then msgCountCD cd m else countKey mp k' m := by
  intro k'
  unfold countKey
  rw [mapLookup_store]
  by_cases h : k' = k <;> simp [h]

theorem countKey_nil (k m : String) : countKey [] k m = 0 := rfl

theorem countKey_eq_of_lookup {mp : List (String × CommitData)} {k : String}
    {cd : CommitData} (m : String) (h : mapLookup mp k = some cd) :
    countKey mp k m = msgCountCD cd m := by
  unfold countKey
  rw [h]

theorem countKey_eq_of_lookup_none {mp : List (String × CommitData)} {k : String}
    (m : String) (h : mapLookup mp k = none) : countKey mp k m = 0 := by
  unfold countKey
  rw [h]

theorem msgCountCD_eq_zero {cd : CommitData} {m : String} :
    msgCountCD cd m = 0 ↔ ¬ cdContainsMsg cd m := by
  unfold msgCountCD msgCountChats cdContainsMsg msgCountPC
  rw [List.sum_eq_zero_iff]
  constructor
  · rintro h ⟨pc, hpc, msg, hmsg, hid⟩
    have h0 := h _ (List.mem_map.2 ⟨pc, hpc, rfl⟩)
    rw [List.countP_eq_zero] at h0
    exact h0 msg hmsg (by simp [hid])
  · intro h x hx
    obtain ⟨pc, hpc, rfl⟩ := List.mem_map.1 hx
    rw [List.countP_eq_zero]
    intro msg hmsg hdec
    exact h ⟨pc, hpc, msg, hmsg, by simpa using hdec⟩

theorem mem_map_values {mp : List (String × CommitData)} {cd : CommitData}
    (h : cd ∈ mp.map (fun p => p.2)) : ∃ k, (k, cd) ∈ mp := by
  obtain ⟨p, hp, he⟩ := List.mem_map.1 h
  refine ⟨p.1, ?_⟩
  rw [← he]
  exact hp

theorem walkCommits_cons_del {ids : List String} {c : CommitEntry} {rest : List CommitEntry}
    {mp : List (String × CommitData)} {seen : List String}
    (h : isDeletionCommitMessage c.commitMessage = true) :
    walkCommits ids (c :: rest) mp seen = walkCommits ids rest mp seen := by
  rw [walkCommits, if_pos h]

theorem walkCommits_cons_fail {ids : List String} {c : CommitEntry} {rest : List CommitEntry}
    {mp : List (String × CommitData)} {seen : List String}
    (h1 : isDeletionCommitMessage c.commitMessage = false)
    (h2 : ∀ s, c.readResult ≠ FileReadResult.ok s) :
    walkCommits ids (c :: rest) mp seen = walkCommits ids rest mp seen := by
  rw [walkCommits, if_neg (by simp [h1])]
  cases hcr : c.readResult with
  | ok s => exact absurd hcr (h2 s)
  | notFound => rfl
  | unparseable => rfl
  | invalidStructure => rfl

theorem walkCommits_cons_ok {ids : List String} {c : CommitEntry} {rest : List CommitEntry}
    {mp : List (String × CommitData)} {seen : List String} {s : StashedState}
    (h1 : isDeletionCommitMessage c.commitMessage = false)
    (h2 : c.readResult = FileReadResult.ok s) :
    walkCommits ids (c :: rest) mp seen =
      walkCommits ids rest
        (mapStore mp c.commitHash (processCommit s ids seen (walkEntryData mp c)).1)
        (processCommit s ids seen (walkEntryData mp c)).2 := by
  rw [walkCommits, if_neg (by simp [h1]), h2]

theorem walkCommits_append (ids : List String) :
    ∀ (l1 l2 : List CommitEntry) (mp : List (String × CommitData)) (seen : List String),
      walkCommits ids (l1 ++ l2) mp seen
        = walkCommits ids l2 (walkCommits ids l1 mp seen).1 (walkCommits ids l1 mp seen).2 := by
  intro l1
  induction l1 with
  | nil =>
    intro l2 mp seen
    rw [List.nil_append, walkCommits]
  | cons c rest ih =>
    intro l2 mp seen
    rw [List.cons_append]
    by_cases hdel : isDeletionCommitMessage c.commitMessage
    · rw [walkCommits_cons_del hdel, walkCommits_cons_del hdel, ih]
    · cases hcr : c.readResult with
      | ok s =>
        rw [walkCommits_cons_ok (by simp [hdel]) hcr,
          walkCommits_cons_ok (by simp [hdel]) hcr, ih]
      | notFound =>
        rw [walkCommits_cons_fail (by simp [hdel]) (by simp [hcr]),
          walkCommits_cons_fail (by simp [hdel]) (by simp [hcr]), ih]
      | unparseable =>
        rw [walkCommits_cons_fail (by simp [hdel]) (by simp [hcr]),
          walkCommits_cons_fail (by simp [hdel]) (by simp [hcr]), ih]
      | invalidStructure =>
        rw [walkCommits_cons_fail (by simp [hdel]) (by simp [hcr]),
          walkCommits_cons_fail (by simp [hdel]) (by simp [hcr]), ih]

theorem walkCommits_WF (ids : List String) :
    ∀ (entries : List CommitEntry) (mp : List (String × CommitData)) (seen : List String),
      mapWF mp → mapWF (walkCommits ids entries mp seen).1 := by
  intro entries
  induction entries with
  | nil =>
    intro mp seen hwf
    rw [walkCommits]
    exact hwf
  | cons c rest ih =>
    intro mp seen hwf
    by_cases hdel : isDeletionCommitMessage c.commitMessage
    · rw [walkCommits_cons_del hdel]
      exact ih mp seen hwf
    · cases hcr : c.readResult with
      | ok s =>
        rw [walkCommits_cons_ok (by simp [hdel]) hcr]
        refine ih _ _ (mapWF_store _ _ _ hwf ?_)
        rw [(processCommit_spec s ids "" seen (walkEntryData mp c)).2.2.2]
        exact walkEntryData_hash hwf
      | notFound =>
        rw [walkCommits_cons_fail (by simp [hdel]) (by simp [hcr])]
        exact ih mp seen hwf
      | unparseable =>
        rw [walkCommits_cons_fail (by simp [hdel]) (by simp [hcr])]
        exact ih mp seen hwf
      | invalidStructure =>
        rw [walkCommits_cons_fail (by simp [hdel]) (by simp [hcr])]
        exact ih mp seen hwf

theorem processableContent_ok {c : CommitEntry} {s : StashedState} :
    processableContent c = some s ↔
      isDeletionCommitMessage c.commitMessage = false ∧ c.readResult = FileReadResult.ok s := by
  unfold processableContent
  by_cases hd : isDeletionCommitMessage c.commitMessage
  · simp [hd]
  · cases hr : c.readResult <;> simp [hd, hr]

/-- Along a stretch of the walk in which no processable commit can still
attribute `m` (because `m` is inactive, already seen, or absent), the per-key
count of `m` is unchanged and `m`'s membership in the seen-set is stable. -/
theorem walkCommits_frozen (ids : List String) (m : String) :
    ∀ (entries : List CommitEntry) (mp : List (String × CommitData)) (seen : List String),
      (∀ c ∈ entries, ∀ s, processableContent c = some s →
        ¬ (m ∈ ids ∧ m ∉ seen ∧ appearsActive s m)) →
      (∀ k, countKey (walkCommits ids entries mp seen).1 k m = countKey mp k m) ∧
      (m ∈ (walkCommits ids entries mp seen).2 ↔ m ∈ seen) := by
  intro entries
  induction entries with
  | nil =>
    intro mp seen _
    rw [walkCommits]
    exact ⟨fun k => rfl, Iff.rfl⟩
  | cons c rest ih =>
    intro mp seen hfr
    by_cases hdel : isDeletionCommitMessage c.commitMessage
    · rw [walkCommits_cons_del hdel]
      exact ih mp seen (fun c' hc' => hfr c' (List.mem_cons_of_mem _ hc'))
    · cases hcr : c.readResult with
      | ok s =>
        rw [walkCommits_cons_ok (by simp [hdel]) hcr]
        have hcp : processableContent c = some s :=
          processableContent_ok.2 ⟨by simp [hdel], hcr⟩
        have hnc := hfr c (List.mem_cons_self _ _) s hcp
        obtain ⟨pcc, pcs, pcsub, _⟩ :=
          processCommit_spec s ids m seen (walkEntryData mp c)
        have hite : (if m ∈ ids ∧ m ∉ seen ∧ appearsActive s m then 1 else 0) = 0 := by
          rw [if_neg hnc]
        have hseen2 : m ∈ (processCommit s ids seen (walkEntryData mp c)).2 ↔ m ∈ seen := by
          rw [pcs]
          constructor
          · rintro (hx | ⟨h1, h2⟩)
            · exact hx
            · by_cases hx2 : m ∈ seen
              · exact hx2
              · exact absurd ⟨h1, hx2, h2⟩ hnc
          · exact Or.inl
        obtain ⟨ihc, ihs⟩ := ih _ _ (fun c' hc' s' hcp' hy =>
          hfr c' (List.mem_cons_of_mem _ hc') s' hcp'
            ⟨hy.1, fun hx => hy.2.1 (hseen2.2 hx), hy.2.2⟩)
        refine ⟨?_, by rw [ihs, hseen2]⟩
        intro k
        rw [ihc k, countKey_store]
        by_cases hk : k = c.commitHash
        · rw [if_pos hk, pcc, hite, countKey_walkEntry, hk]
          omega
        · rw [if_neg hk]
      | notFound =>
        rw [walkCommits_cons_fail (by simp [hdel]) (by simp [hcr])]
        exact ih mp seen (fun c' hc' => hfr c' (List.mem_cons_of_mem _ hc'))
      | unparseable =>
        rw [walkCommits_cons_fail (by simp [hdel]) (by simp [hcr])]
        exact ih mp seen (fun c' hc' => hfr c' (List.mem_cons_of_mem _ hc'))
      | invalidStructure =>
        rw [walkCommits_cons_fail (by simp [hdel]) (by simp [hcr])]
        exact ih mp seen (fun c' hc' => hfr c' (List.mem_cons_of_mem _ hc'))

/-! ## Lemmas: `getGitHistory` as a whole -/

theorem getGitHistory_ok_iff {env : GitEnv} {h : GitHistoryData} :
    getGitHistory env = .ok h ↔
      env.fileExists = true ∧ env.statusFails = false ∧
        ∃ entries, env.logResult = some entries ∧
          h = ⟨historyCommits (activeMessageIds (currentStateOf env.currentRead)) entries,
               historyUncommitted env (activeMessageIds (currentStateOf env.currentRead))⟩ := by
  unfold getGitHistory
  cases hfe : env.fileExists
  · simp
  · cases hlog : env.logResult with
    | none => simp
    | some entries =>
      cases hsf : env.statusFails
      · simp [eq_comm]
      · simp

theorem activeMessageIds_not_deleted {s : StashedState} {m : String}
    (hm : m ∈ (normDeletedChats s.deletedChats).deletedMessageIDs) :
    m ∉ activeMessageIds s := by
  intro hx
  unfold activeMessageIds at hx
  obtain ⟨pc, _, hmem⟩ := List.mem_flatMap.1 hx
  obtain ⟨msg, hmsg, hid⟩ := List.mem_map.1 hmem
  have := List.mem_filter.1 hmsg
  rw [decide_eq_true_eq] at this
  exact this.2 (hid ▸ hm)

theorem historyCommits_not_contains {ids : List String} {entries : List CommitEntry}
    {m : String} (hm : m ∉ ids) :
    ∀ cd ∈ historyCommits ids entries, ¬ cdContainsMsg cd m := by
  intro cd hcd
  unfold historyCommits at hcd
  have hcd' := List.mem_of_mem_filter hcd
  obtain ⟨k, hk⟩ := mem_map_values hcd'
  have hwf : mapWF (walkCommits ids entries [] []).1 :=
    walkCommits_WF ids entries [] [] ⟨by simp, by intro p hp; exact absurd hp (List.not_mem_nil _)⟩
  have hlu : mapLookup (walkCommits ids entries [] []).1 k = some cd :=
    mapLookup_eq_some_of_mem _ _ _ hwf.1 hk
  have hfz := (walkCommits_frozen ids m entries [] []
    (fun c _ s _ hy => hm hy.1)).1 k
  rw [countKey_nil] at hfz
  unfold countKey at hfz
  rw [hlu] at hfz
  exact msgCountCD_eq_zero.1 hfz

theorem uncommittedChats_mem_ids {s : StashedState} {ids : List String}
    {pc : PanelChat} {msg : MessageEntry}
    (hpc : pc ∈ uncommittedChats s ids) (hmsg : msg ∈ pc.messages) : msg.id ∈ ids := by
  unfold uncommittedChats at hpc
  have hpc' := List.mem_of_mem_filter hpc
  obtain ⟨pc0, _, heq⟩ := List.mem_map.1 hpc'
  rw [← heq] at hmsg
  have := List.mem_filter.1 hmsg
  rw [decide_eq_true_eq] at this
  exact this.2.2

theorem historyUncommitted_some {env : GitEnv} {ids : List String} {u : UncommittedData}
    (h : historyUncommitted env ids = some u) :
    u.panelChats = uncommittedChats (currentStateOf env.uncommittedRead) ids := by
  unfold historyUncommitted at h
  by_cases h1 : env.statusHasFile = true
  · rw [if_pos h1] at h
    by_cases h2 : 0 < (uncommittedChats (currentStateOf env.uncommittedRead) ids).length
    · rw [if_pos h2] at h
      rw [← Option.some.inj h]
    · rw [if_neg h2] at h
      exact absurd h (by simp)
  · rw [if_neg h1] at h
    exact absurd h (by simp)

theorem addedFoldMem (dM : List String) (m : String) (hm : m ∈ dM) :
    ∀ (l : List PanelChat) (acc : List PanelChat × List String),
      (∀ pc ∈ acc.1, ∀ msg ∈ pc.messages, msg.id ≠ m) →
      ∀ pc ∈ (l.foldl (fun (acc : List PanelChat × List String) pc =>
          (acc.1 ++ [{ pc with messages := (pc.messages.filter
              (fun msg => msg.id ∉ dM ∧ msg.id ∉ acc.2)) }],
           acc.2 ++ pc.messages.map (fun msg => msg.id))) acc).1,
        ∀ msg ∈ pc.messages, msg.id ≠ m := by
  intro l
  induction l with
  | nil =>
    intro acc hacc
    exact hacc
  | cons pc0 l ih =>
    intro acc hacc
    rw [List.foldl_cons]
    apply ih
    intro pc hpc msg hmsg
    rcases List.mem_append.1 hpc with hpc' | hpc'
    · exact hacc pc hpc' msg hmsg
    · rcases List.mem_singleton.1 hpc' with rfl
      have := List.mem_filter.1 hmsg
      rw [decide_eq_true_eq] at this
      intro he
      exact this.2.1 (he ▸ hm)

/-! ## Claim theorems: deletion monotonicity and empty-commit pruning -/

/-- C2: a message id in the current snapshot's `deletedMessageIDs` ledger is
excluded from every commit's `CommitData` and from the uncommitted output of
`getGitHistory`, however many historical commits contain it, because the
active-id set is computed once from the current ledger and required
everywhere; likewise the `added`/`uncommitted` aggregations of the
`gait_context.md` variant exclude every id of their deletion ledger. -/
theorem deletion_monotonicity (env : GitEnv) (m : String)
    (hm : m ∈ (normDeletedChats (currentStateOf env.currentRead).deletedChats).deletedMessageIDs) :
    (∀ h, getGitHistory env = .ok h →
      (∀ cd ∈ h.commits, ¬ cdContainsMsg cd m) ∧
      (∀ u, h.uncommitted = some u →
        ∀ pc ∈ u.panelChats, ∀ msg ∈ pc.messages, msg.id ≠ m)) ∧
    (∀ (chats : List PanelChat) (dPC dM seen : List String), m ∈ dM →
      (∀ pc ∈ (addedChatsCtx chats dPC dM seen).1, ∀ msg ∈ pc.messages, msg.id ≠ m) ∧
      (∀ pc ∈ uncommittedChatsCtx chats dPC dM seen, ∀ msg ∈ pc.messages, msg.id ≠ m)) := by
  have hma : m ∉ activeMessageIds (currentStateOf env.currentRead) :=
    activeMessageIds_not_deleted hm
  constructor
  · intro h hok
    obtain ⟨hfe, hsf, entries, hlog, rfl⟩ := getGitHistory_ok_iff.1 hok
    constructor
    · exact historyCommits_not_contains hma
    · intro u hu pc hpc msg hmsg heq
      have he := historyUncommitted_some hu
      rw [he] at hpc
      exact hma (heq ▸ uncommittedChats_mem_ids hpc hmsg)
  · intro chats dPC dM seen hdm
    constructor
    · intro pc hpc msg hmsg
      unfold addedChatsCtx at hpc
      have hpc' := List.mem_of_mem_filter hpc
      exact addedFoldMem dM m hdm _ ([], seen)
        (fun pc' hpc'' => absurd hpc'' (List.not_mem_nil _)) pc hpc' msg hmsg
    · intro pc hpc msg hmsg heq
      unfold uncommittedChatsCtx at hpc
      have hpc' := List.mem_of_mem_filter hpc
      obtain ⟨pc0, _, hpe⟩ := List.mem_map.1 hpc'
      rw [← hpe] at hmsg
      have hf := List.mem_filter.1 hmsg
      rw [decide_eq_true_eq] at hf
      exact hf.2.1 (heq ▸ hdm)

/-- Witness for C2: `m1` is in `envDeleted`'s current ledger, appears in
both historical commits' snapshots, and the run's commit list excludes it
(here the commit list is empty, as both commits end up with no attributable
message). -/
theorem deletion_monotonicity_witness :
    ("m1" ∈ (normDeletedChats
        (currentStateOf envDeleted.currentRead).deletedChats).deletedMessageIDs) ∧
    appearsActive cexCommitState "m1" ∧
    (∀ cd ∈ (GitHistoryData.mk [] none).commits, ¬ cdContainsMsg cd "m1") := by
  refine ⟨by decide, by decide, ?_⟩
  exact ((deletion_monotonicity envDeleted "m1" (by decide)).1 ⟨[], none⟩ (by rfl)).1

/-- Counterexample to C3: `envPrune`'s single returned commit retains an
empty `PanelChat` (chat `B`, whose only message is inactive in the current
snapshot): the source filters out commits with no non-empty chat, but does
not remove empty chats from surviving commits. -/
theorem empty_chat_pruning_counterexample :
    (getGitHistoryCommits envPrune).length = 1 ∧
    ((getGitHistoryCommits envPrune).any
      (fun cd => cd.panelChats.any (fun pc => pc.messages.isEmpty))) = true := by
  exact ⟨by decide, by decide⟩

/-- C3 amended: every commit of the returned `GitHistoryData.commits` has at
least one `PanelChat` with at least one message (commits whose chats are all
empty are dropped); chats that ended up with an empty message list are not
removed from a surviving commit's `CommitData`. -/
theorem empty_chat_pruning_amended (env : GitEnv) (h : GitHistoryData)
    (hok : getGitHistory env = .ok h) :
    ∀ cd ∈ h.commits, ∃ pc ∈ cd.panelChats, 0 < pc.messages.length := by
  obtain ⟨_, _, entries, _, rfl⟩ := getGitHistory_ok_iff.1 hok
  intro cd hcd
  unfold historyCommits at hcd
  have hany := (List.mem_filter.1 hcd).2
  obtain ⟨pc, hpc, hdec⟩ := List.any_eq_true.1 hany
  exact ⟨pc, hpc, by simpa using hdec⟩

/-- Witness for the amended C3: `envPrune`'s run returns exactly the commit
`cdPrune`, which has a chat with one message. -/
theorem empty_chat_pruning_amended_witness :
    getGitHistory envPrune = .ok ⟨[cdPrune], none⟩ ∧
    (∃ pc ∈ cdPrune.panelChats, 0 < pc.messages.length) := by
  refine ⟨by rfl, ?_⟩
  exact empty_chat_pruning_amended envPrune ⟨[cdPrune], none⟩ (by rfl) cdPrune
    (List.mem_singleton_self _)

/-! ## Claim theorems: failure boundary and earliest attribution -/

theorem walkCommits_filter_fails (ids : List String) :
    ∀ (l : List CommitEntry) (mp : List (String × CommitData)) (seen : List String),
      walkCommits ids (l.filter (fun c => !isFailureSkip c)) mp seen
        = walkCommits ids l mp seen := by
  intro l
  induction l with
  | nil =>
    intro mp seen
    rfl
  | cons c rest ih =>
    intro mp seen
    by_cases hf : isFailureSkip c = true
    · rw [List.filter_cons, if_neg (by simp [hf])]
      unfold isFailureSkip at hf
      rw [Bool.and_eq_true] at hf
      have hdel : isDeletionCommitMessage c.commitMessage = false := by
        have h1 := hf.1
        simp only [Bool.not_eq_true'] at h1
        exact h1
      have hbad : ∀ s, c.readResult ≠ FileReadResult.ok s := by
        intro s hs
        have h2 := hf.2
        rw [hs] at h2
        simp at h2
      rw [walkCommits_cons_fail hdel hbad, ih]
    · rw [List.filter_cons, if_pos (by simp [hf])]
      by_cases hdel : isDeletionCommitMessage c.commitMessage
      · rw [walkCommits_cons_del hdel, walkCommits_cons_del hdel, ih]
      · cases hcr : c.readResult with
        | ok s =>
          rw [walkCommits_cons_ok (by simp [hdel]) hcr,
            walkCommits_cons_ok (by simp [hdel]) hcr, ih]
        | notFound =>
          exact absurd (show isFailureSkip c = true by simp [isFailureSkip, hdel, hcr]) hf
        | unparseable =>
          exact absurd (show isFailureSkip c = true by simp [isFailureSkip, hdel, hcr]) hf
        | invalidStructure =>
          exact absurd (show isFailureSkip c = true by simp [isFailureSkip, hdel, hcr]) hf

theorem getGitHistory_error_iff {env : GitEnv} :
    (∃ e, getGitHistory env = .error e) ↔
      (env.fileExists = false ∨ env.logResult = none ∨ env.statusFails = true) := by
  unfold getGitHistory
  cases hfe : env.fileExists
  · simp
  · cases hlog : env.logResult with
    | none => simp
    | some entries =>
      cases hsf : env.statusFails
      · simp
      · simp

/-- Counterexample to C7: with the tracked file present in the working tree
and the commit list retrievable, a `git status` failure still makes
`getGitHistory` throw — so the entry check and the commit-list retrieval are
not the only fatal points. -/
theorem status_failure_counterexample :
    getGitHistory envStatusFail = .error "Failed to retrieve git status" ∧
    envStatusFail.fileExists = true ∧ envStatusFail.logResult ≠ none := by
  refine ⟨by rfl, by rfl, by decide⟩

/-- C7 amended: `getGitHistory` throws exactly when the tracked file is
missing from the working tree at entry, the commit list cannot be
retrieved, or the `git status` call fails; every read/parse/validation
failure inside the per-commit loop only skips that commit — deleting
exactly the failing entries from the log leaves the result unchanged. -/
theorem walk_failure_boundary_amended (env : GitEnv) :
    ((∃ e, getGitHistory env = .error e) ↔
      (env.fileExists = false ∨ env.logResult = none ∨ env.statusFails = true)) ∧
    getGitHistory env = getGitHistory { env with
      logResult := env.logResult.map (fun l => l.filter (fun c => !isFailureSkip c)) } := by
  refine ⟨getGitHistory_error_iff, ?_⟩
  have hcommits : ∀ (entries : List CommitEntry) (ids : List String),
      historyCommits ids (entries.filter (fun c => !isFailureSkip c))
        = historyCommits ids entries := by
    intro entries ids
    unfold historyCommits
    rw [walkCommits_filter_fails]
  unfold getGitHistory
  cases hlog : env.logResult with
  | none => rfl
  | some entries =>
    dsimp only [Option.map]
    rw [hcommits]
    rfl

theorem earliest_attribution_aux (ids : List String) (m : String)
    (l1 l2 : List CommitEntry) (c : CommitEntry) (s : StashedState)
    (hdel : isDeletionCommitMessage c.commitMessage = false)
    (hok : c.readResult = FileReadResult.ok s)
    (hm : m ∈ ids) (hap : appearsActive s m)
    (hearlier : ∀ c' ∈ l1, ∀ s', processableContent c' = some s' → ¬ appearsActive s' m) :
    mapWF (walkCommits ids (l1 ++ c :: l2) [] []).1 ∧
    ∀ k, countKey (walkCommits ids (l1 ++ c :: l2) [] []).1 k m
      = if k = c.commitHash then 1 else 0 := by
  have hwfnil : mapWF ([] : List (String × CommitData)) :=
    ⟨by simp, fun p hp => absurd hp (List.not_mem_nil _)⟩
  obtain ⟨h1c, h1s⟩ := walkCommits_frozen ids m l1 [] []
    (fun c' hc' s' hcp' hy => hearlier c' hc' s' hcp' hy.2.2)
  have hW1 : mapWF (walkCommits ids l1 [] []).1 := walkCommits_WF ids l1 [] [] hwfnil
  have hm1 : m ∉ (walkCommits ids l1 [] []).2 := fun hx => by simpa using h1s.1 hx
  obtain ⟨pcc, pcs, _, pch⟩ := processCommit_spec s ids m (walkCommits ids l1 [] []).2
    (walkEntryData (walkCommits ids l1 [] []).1 c)
  have hcount1 : msgCountCD (processCommit s ids (walkCommits ids l1 [] []).2
      (walkEntryData (walkCommits ids l1 [] []).1 c)).1 m = 1 := by
    rw [pcc, countKey_walkEntry, h1c, countKey_nil, if_pos ⟨hm, hm1, hap⟩]
  have hseen2 : m ∈ (processCommit s ids (walkCommits ids l1 [] []).2
      (walkEntryData (walkCommits ids l1 [] []).1 c)).2 := pcs.2 (Or.inr ⟨hm, hap⟩)
  have hwalk : walkCommits ids (l1 ++ c :: l2) [] []
      = walkCommits ids l2
          (mapStore (walkCommits ids l1 [] []).1 c.commitHash
            (processCommit s ids (walkCommits ids l1 [] []).2
              (walkEntryData (walkCommits ids l1 [] []).1 c)).1)
          (processCommit s ids (walkCommits ids l1 [] []).2
            (walkEntryData (walkCommits ids l1 [] []).1 c)).2 := by
    rw [walkCommits_append, walkCommits_cons_ok hdel hok]
  have hwf2 : mapWF (mapStore (walkCommits ids l1 [] []).1 c.commitHash
      (processCommit s ids (walkCommits ids l1 [] []).2
        (walkEntryData (walkCommits ids l1 [] []).1 c)).1) :=
    mapWF_store _ _ _ hW1 (by rw [pch]; exact walkEntryData_hash hW1)
  obtain ⟨h2c, _⟩ := walkCommits_frozen ids m l2 _ _
    (fun c' _ s' _ hy => hy.2.1 hseen2)
  constructor
  · rw [hwalk]
    exact walkCommits_WF ids l2 _ _ hwf2
  · intro k
    rw [hwalk, h2c k, countKey_store]
    by_cases h : k = c.commitHash
    · rw [if_pos h, if_pos h, hcount1]
    · rw [if_neg h, if_neg h, h1c, countKey_nil]

/-- C1: a message id active in the current snapshot and appearing (in a
non-deleted chat) in the processable commit `c`, but in no processable
commit before `c`, is attributed to `c`'s `CommitData` alone: the walk's
running `seenMessageIds` suppresses every later occurrence, so no commit
with a different hash contains the message. -/
theorem earliest_attribution (env : GitEnv) (l1 l2 : List CommitEntry) (c : CommitEntry)
    (m : String) (s : StashedState)
    (hfe : env.fileExists = true) (hsf : env.statusFails = false)
    (hlog : env.logResult = some (l1 ++ c :: l2))
    (hm : m ∈ activeMessageIds (currentStateOf env.currentRead))
    (hc : processableContent c = some s) (hap : appearsActive s m)
    (hearlier : ∀ c' ∈ l1, ∀ s', processableContent c' = some s' → ¬ appearsActive s' m) :
    ∃ h, getGitHistory env = .ok h ∧
      (∃ cd ∈ h.commits, cd.commitHash = c.commitHash ∧ cdContainsMsg cd m) ∧
      (∀ cd ∈ h.commits, cd.commitHash ≠ c.commitHash → ¬ cdContainsMsg cd m) := by
  obtain ⟨hdel, hok⟩ := processableContent_ok.1 hc
  obtain ⟨hwfF, hckey⟩ := earliest_attribution_aux
    (activeMessageIds (currentStateOf env.currentRead)) m l1 l2 c s hdel hok hm hap hearlier
  refine ⟨⟨historyCommits (activeMessageIds (currentStateOf env.currentRead)) (l1 ++ c :: l2),
      historyUncommitted env (activeMessageIds (currentStateOf env.currentRead))⟩,
    getGitHistory_ok_iff.2 ⟨hfe, hsf, l1 ++ c :: l2, hlog, rfl⟩, ?_, ?_⟩
  · have h1 : countKey (walkCommits (activeMessageIds (currentStateOf env.currentRead))
        (l1 ++ c :: l2) [] []).1 c.commitHash m = 1 := by
      rw [hckey, if_pos rfl]
    cases hlu : mapLookup (walkCommits (activeMessageIds (currentStateOf env.currentRead))
        (l1 ++ c :: l2) [] []).1 c.commitHash with
    | none =>
      rw [countKey_eq_of_lookup_none m hlu] at h1
      exact absurd h1 (by decide)
    | some cd =>
      rw [countKey_eq_of_lookup m hlu] at h1
      have hmem := mapLookup_mem hlu
      have hcontains : cdContainsMsg cd m := by
        by_contra hnc
        have h0 := msgCountCD_eq_zero.2 hnc
        exact absurd (h0.symm.trans h1) (by decide)
      obtain ⟨pc, hpc, msg, hmsg, _⟩ := id hcontains
      refine ⟨cd, ?_, hwfF.2 _ hmem, hcontains⟩
      unfold historyCommits
      refine List.mem_filter.2 ⟨List.mem_map.2 ⟨(c.commitHash, cd), hmem, rfl⟩, ?_⟩
      refine List.any_eq_true.2 ⟨pc, hpc, ?_⟩
      have := List.length_pos.2 (List.ne_nil_of_mem hmsg)
      simpa using this
  · intro cd hcd hne
    unfold historyCommits at hcd
    have hcd' := List.mem_of_mem_filter hcd
    obtain ⟨k, hk⟩ := mem_map_values hcd'
    have hkh : cd.commitHash = k := hwfF.2 _ hk
    have hk0 : countKey (walkCommits (activeMessageIds (currentStateOf env.currentRead))
        (l1 ++ c :: l2) [] []).1 k m = 0 := by
      rw [hckey, if_neg (by rw [← hkh]; exact hne)]
    have hlu := mapLookup_eq_some_of_mem _ _ _ hwfF.1 hk
    rw [countKey_eq_of_lookup m hlu] at hk0
    exact msgCountCD_eq_zero.1 hk0

/-- Witness for C1: `envEarliest` has two commits both carrying `m1`; the
run attributes `m1` to the first commit `h1` and to no other. -/
theorem earliest_attribution_witness :
    (envEarliest.fileExists = true ∧ envEarliest.statusFails = false ∧
      envEarliest.logResult = some ([] ++ cexEntry1 :: [cexEntry2]) ∧
      "m1" ∈ activeMessageIds (currentStateOf envEarliest.currentRead) ∧
      processableContent cexEntry1 = some cexCommitState ∧
      appearsActive cexCommitState "m1") ∧
    (∃ h, getGitHistory envEarliest = .ok h ∧
      (∃ cd ∈ h.commits, cd.commitHash = cexEntry1.commitHash ∧ cdContainsMsg cd "m1") ∧
      (∀ cd ∈ h.commits, cd.commitHash ≠ cexEntry1.commitHash → ¬ cdContainsMsg cd "m1")) := by
  refine ⟨⟨by rfl, by rfl, by rfl, by decide, by decide, by decide⟩, ?_⟩
  exact earliest_attribution envEarliest [] [cexEntry2] cexEntry1 "m1" cexCommitState
    (by rfl) (by rfl) (by rfl) (by decide) (by decide) (by decide)
    (fun c' hc' => absurd hc' (List.not_mem_nil _))

/-! ## Claim theorems: schema tolerance -/

/-- C8: a snapshot payload that parses and validates but lacks the
`deletedChats` field, or whose sub-fields are absent/non-arrays, is treated
as if both ledger arrays were empty: `ensureDeletedChats` fills them in,
`processCommit` behaves exactly as on the explicit-empty-ledger snapshot,
and the walk processes such a commit rather than skipping it. -/
theorem schema_tolerance :
    (normDeletedChats none = ⟨[], []⟩) ∧
    (∀ s : StashedState, s.deletedChats = none →
      ensureDeletedChats s = { s with deletedChats := some ⟨some [], some []⟩ } ∧
      ∀ ids seen cd, processCommit s ids seen cd
        = processCommit { s with deletedChats := some ⟨some [], some []⟩ } ids seen cd) ∧
    (∀ (s : StashedState) (r : DeletedChatsRaw), s.deletedChats = some r →
      r.deletedMessageIDs = none → r.deletedPanelChatIDs = none →
      ∀ ids seen cd, processCommit s ids seen cd
        = processCommit { s with deletedChats := some ⟨some [], some []⟩ } ids seen cd) ∧
    (∀ ids (c : CommitEntry) rest mp seen s,
      isDeletionCommitMessage c.commitMessage = false →
      c.readResult = FileReadResult.ok s →
      walkCommits ids (c :: rest) mp seen =
        walkCommits ids rest
          (mapStore mp c.commitHash (processCommit s ids seen (walkEntryData mp c)).1)
          (processCommit s ids seen (walkEntryData mp c)).2) := by
  refine ⟨rfl, ?_, ?_, ?_⟩
  · intro s h
    constructor
    · simp [ensureDeletedChats, h, normDeletedChats]
    · intro ids seen cd
      simp [processCommit, h, normDeletedChats]
  · intro s r h h1 h2 ids seen cd
    simp [processCommit, h, h1, h2, normDeletedChats]
  · intro ids c rest mp seen s h1 h2
    exact walkCommits_cons_ok h1 h2

/-- Witness for C8: the historical snapshot `cexCommitState` has no
`deletedChats` field, and processing it equals processing the
explicit-empty-ledger version. -/
theorem schema_tolerance_witness :
    cexCommitState.deletedChats = none ∧
    processCommit cexCommitState ["m1"] [] (freshCommitData cexEntry1)
      = processCommit { cexCommitState with deletedChats := some ⟨some [], some []⟩ }
          ["m1"] [] (freshCommitData cexEntry1) := by
  refine ⟨by rfl, ?_⟩
  exact (schema_tolerance.2.1 cexCommitState (by rfl)).2 ["m1"] [] (freshCommitData cexEntry1)

/-! ## Lemmas: the snapshot store (`writeChatToStashedState`) -/

theorem countP_congr_mem {α : Type} (p q : α → Bool) :
    ∀ l : List α, (∀ a ∈ l, p a = q a) → l.countP p = l.countP q := by
  intro l
  induction l with
  | nil => intro _; rfl
  | cons a l ih =>
    intro h
    rw [List.countP_cons, List.countP_cons, h a (List.mem_cons_self _ _),
      ih (fun b hb => h b (List.mem_cons_of_mem _ hb))]

theorem modifyFirstChat_ids (cid : String) (f : PanelChat → PanelChat)
    (hid : ∀ x, (f x).id = x.id) :
    ∀ l : List PanelChat, (modifyFirstChat l cid f).map (fun pc => pc.id)
      = l.map (fun pc => pc.id) := by
  intro l
  induction l with
  | nil => rfl
  | cons pc rest ih =>
    by_cases h : pc.id = cid
    · simp [modifyFirstChat, h, hid]
    · simp [modifyFirstChat, h, ih]

theorem modifyFirstChat_congr (cid : String) (f g : PanelChat → PanelChat)
    (h : ∀ x, x.id = cid → f x = g x) :
    ∀ l : List PanelChat, modifyFirstChat l cid f = modifyFirstChat l cid g := by
  intro l
  induction l with
  | nil => rfl
  | cons pc rest ih =>
    by_cases hpc : pc.id = cid
    · rw [modifyFirstChat, if_pos hpc, modifyFirstChat, if_pos hpc, h pc hpc]
    · rw [modifyFirstChat, if_neg hpc, modifyFirstChat, if_neg hpc, ih]

theorem modifyFirstChat_comp (cid : String) (f g : PanelChat → PanelChat)
    (hid : ∀ x, x.id = cid → (f x).id = cid) :
    ∀ l : List PanelChat,
      modifyFirstChat (modifyFirstChat l cid f) cid g
        = modifyFirstChat l cid (fun x => g (f x)) := by
  intro l
  induction l with
  | nil => rfl
  | cons pc rest ih =>
    by_cases hpc : pc.id = cid
    · rw [modifyFirstChat, if_pos hpc, modifyFirstChat, if_pos (hid pc hpc),
        modifyFirstChat, if_pos hpc]
    · rw [modifyFirstChat, if_neg hpc, modifyFirstChat, if_neg hpc,
        modifyFirstChat, if_neg hpc, ih]

theorem modifyFirstChat_append_no_match (cid : String) (f : PanelChat → PanelChat) :
    ∀ (l l2 : List PanelChat), (∀ q ∈ l, ¬ q.id = cid) →
      modifyFirstChat (l ++ l2) cid f = l ++ modifyFirstChat l2 cid f := by
  intro l
  induction l with
  | nil =>
    intro l2 _
    rfl
  | cons pc rest ih =>
    intro l2 h
    rw [List.cons_append, modifyFirstChat, if_neg (h pc (List.mem_cons_self _ _)),
      ih l2 (fun q hq => h q (List.mem_cons_of_mem _ hq)), List.cons_append]

theorem writeChat_exists (s : StashedState) (c : PanelChat)
    (hex : ∃ q ∈ s.panelChats, q.id = c.id) :
    writeChatToStashedState s c
      = { s with panelChats := modifyFirstChat s.panelChats c.id (appendMissing c) } := by
  unfold writeChatToStashedState
  rw [if_pos hex]
  rfl

theorem writeChat_not_exists (s : StashedState) (c : PanelChat)
    (hex : ¬ ∃ q ∈ s.panelChats, q.id = c.id) :
    writeChatToStashedState s c = { s with panelChats := s.panelChats ++ [c] } := by
  unfold writeChatToStashedState
  rw [if_neg hex]

theorem filter_missing_self_nil (cs : List MessageEntry) :
    cs.filter (fun msg => ¬ ∃ em ∈ cs, em.id = msg.id) = [] := by
  rw [List.filter_eq_nil_iff]
  intro msg hmsg
  simp only [decide_eq_true_eq, Decidable.not_not]
  exact ⟨msg, hmsg, rfl⟩

theorem filter_missing_after_append (cs ms : List MessageEntry) :
    cs.filter (fun msg =>
        ¬ ∃ em ∈ ms ++ cs.filter (fun m2 => ¬ ∃ em2 ∈ ms, em2.id = m2.id),
          em.id = msg.id) = [] := by
  rw [List.filter_eq_nil_iff]
  intro msg hmsg
  simp only [decide_eq_true_eq, Decidable.not_not, List.mem_append]
  intro h
  by_cases hin : ∃ em ∈ ms, em.id = msg.id
  · obtain ⟨em, hem, heq⟩ := hin
    exact h ⟨em, Or.inl hem, heq⟩
  · refine h ⟨msg, Or.inr ?_, rfl⟩
    refine List.mem_filter.2 ⟨hmsg, ?_⟩
    simpa using hin

theorem appendMissing_id (c x : PanelChat) : (appendMissing c x).id = x.id := rfl

theorem appendMissing_idem (c x : PanelChat) :
    appendMissing c (appendMissing c x) = appendMissing c x := by
  unfold appendMissing
  dsimp only
  rw [filter_missing_after_append, List.append_nil]

theorem appendMissing_self (c : PanelChat) : appendMissing c c = c := by
  unfold appendMissing
  rw [filter_missing_self_nil, List.append_nil]

theorem countP_filter_eq_of_agree {α : Type} (p q : α → Bool) :
    ∀ l : List α, (∀ a ∈ l, p a = true → q a = true) →
      (l.filter q).countP p = l.countP p := by
  intro l
  induction l with
  | nil => intro _; rfl
  | cons a l ih =>
    intro h
    have ihl := ih (fun b hb => h b (List.mem_cons_of_mem _ hb))
    by_cases hq : q a = true
    · rw [List.filter_cons, if_pos hq, List.countP_cons, List.countP_cons, ihl]
    · have hp : p a = false := by
        cases hpa : p a
        · rfl
        · exact absurd (h a (List.mem_cons_self _ _) hpa) hq
      rw [List.filter_cons, if_neg hq, List.countP_cons, ihl, hp]
      simp

theorem appendMissing_count (c x : PanelChat) (m : String)
    (hc1 : msgCountPC c m = 1) (hx0 : msgCountPC x m = 0) :
    msgCountPC (appendMissing c x) m = msgCountPC x m + 1 := by
  have hx0m : ∀ em ∈ x.messages, ¬ em.id = m := by
    intro em hem heq
    have hpos : 0 < x.messages.countP (fun msg => decide (msg.id = m)) :=
      List.countP_pos_iff.2 ⟨em, hem, by simp [heq]⟩
    have hz : x.messages.countP (fun msg => decide (msg.id = m)) = 0 := hx0
    omega
  have hagree : ∀ msg ∈ c.messages,
      (fun msg => decide (msg.id = m)) msg = true →
        (fun msg => decide (¬ ∃ em ∈ x.messages, em.id = msg.id)) msg = true := by
    intro msg _ hpm
    have hm : msg.id = m := of_decide_eq_true hpm
    simp only [decide_eq_true_eq]
    intro hcon
    obtain ⟨em, hem, heq⟩ := hcon
    exact hx0m em hem (by rw [heq, hm])
  have hc1x : c.messages.countP (fun msg => decide (msg.id = m)) = 1 := hc1
  show ((x.messages ++
      c.messages.filter (fun msg => decide (¬ ∃ em ∈ x.messages, em.id = msg.id))).countP
      (fun msg => decide (msg.id = m))) = msgCountPC x m + 1
  rw [List.countP_append,
    countP_filter_eq_of_agree (fun msg => decide (msg.id = m))
      (fun msg => decide (¬ ∃ em ∈ x.messages, em.id = msg.id)) c.messages hagree,
    hc1x]
  have hz : x.messages.countP (fun msg => decide (msg.id = m)) = 0 := hx0
  unfold msgCountPC
  omega

theorem chatsCount_modifyFirst (cid m : String) (f : PanelChat → PanelChat)
    (hid : ∀ x, (f x).id = x.id) :
    ∀ l : List PanelChat,
      (∀ x ∈ l, x.id = cid → msgCountPC (f x) m = msgCountPC x m + 1) →
      (∃ q ∈ l, q.id = cid) →
      (((modifyFirstChat l cid f).filter (fun pc => pc.id = cid)).map
          (fun pc => msgCountPC pc m)).sum
        = ((l.filter (fun pc => pc.id = cid)).map (fun pc => msgCountPC pc m)).sum + 1 := by
  intro l
  induction l with
  | nil =>
    intro _ hq
    obtain ⟨q, hq, _⟩ := hq
    exact absurd hq (List.not_mem_nil q)
  | cons pc rest ih =>
    intro hcount hq
    by_cases hpc : pc.id = cid
    · have hfid : (f pc).id = cid := by rw [hid]; exact hpc
      rw [modifyFirstChat, if_pos hpc]
      rw [List.filter_cons, List.filter_cons,
        if_pos (decide_eq_true hfid), if_pos (decide_eq_true hpc),
        List.map_cons, List.map_cons, List.sum_cons, List.sum_cons,
        hcount pc (List.mem_cons_self _ _) hpc]
      omega
    · have hq2 : ∃ q ∈ rest, q.id = cid := by
        obtain ⟨q, hqmem, hqid⟩ := hq
        rcases List.mem_cons.1 hqmem with h | h
        · exact absurd (h ▸ hqid) hpc
        · exact ⟨q, h, hqid⟩
      rw [modifyFirstChat, if_neg hpc]
      have hd : ¬ (decide (pc.id = cid) = true) := by simp [hpc]
      rw [List.filter_cons, List.filter_cons, if_neg hd, if_neg hd]
      exact ih (fun x hx => hcount x (List.mem_cons_of_mem _ hx)) hq2

/-! ## Claim theorems: idempotent append -/

/-- C9: `writeChatToStashedState` is idempotent — writing the same chat twice
equals writing it once; when no stored chat carries the incoming chat id, a new
chat entry is appended whole; and if the incoming chat carries exactly one
message with id m while no stored chat contains any, then after writing twice
the stored chats with that chat id hold exactly one message with id m. -/
theorem idempotent_append (s : StashedState) (c : PanelChat) (m : String) :
    writeChatToStashedState (writeChatToStashedState s c) c
        = writeChatToStashedState s c ∧
    ((∀ q ∈ s.panelChats, ¬ q.id = c.id) →
      (writeChatToStashedState s c).panelChats = s.panelChats ++ [c]) ∧
    (msgCountPC c m = 1 →
      (∀ q ∈ s.panelChats, msgCountPC q m = 0) →
      stateChatMsgCount (writeChatToStashedState (writeChatToStashedState s c) c) c.id m
        = 1) := by
  have hidem : writeChatToStashedState (writeChatToStashedState s c) c
      = writeChatToStashedState s c := by
    by_cases hex : ∃ q ∈ s.panelChats, q.id = c.id
    · rw [writeChat_exists s c hex]
      have hex2 : ∃ q ∈ modifyFirstChat s.panelChats c.id (appendMissing c),
          q.id = c.id := by
        obtain ⟨q0, hq0, hq0id⟩ := hex
        have hm := modifyFirstChat_ids c.id (appendMissing c) (appendMissing_id c)
          s.panelChats
        have hq0m : q0.id ∈ (modifyFirstChat s.panelChats c.id (appendMissing c)).map
            (fun pc => pc.id) := by
          rw [hm]
          exact List.mem_map.2 ⟨q0, hq0, rfl⟩
        obtain ⟨q1, hq1, hq1id⟩ := List.mem_map.1 hq0m
        exact ⟨q1, hq1, by rw [hq1id, hq0id]⟩
      rw [writeChat_exists _ c hex2]
      have hfix : modifyFirstChat (modifyFirstChat s.panelChats c.id (appendMissing c))
          c.id (appendMissing c)
          = modifyFirstChat s.panelChats c.id (appendMissing c) := by
        rw [modifyFirstChat_comp c.id (appendMissing c) (appendMissing c)
          (fun x hx => hx) s.panelChats]
        exact modifyFirstChat_congr c.id _ _ (fun x _ => appendMissing_idem c x)
          s.panelChats
      exact congrArg (fun l => ({ s with panelChats := l } : StashedState)) hfix
    · rw [writeChat_not_exists s c hex]
      have hnone : ∀ q ∈ s.panelChats, ¬ q.id = c.id :=
        fun q hq hq2 => hex ⟨q, hq, hq2⟩
      have hex2 : ∃ q ∈ s.panelChats ++ [c], q.id = c.id :=
        ⟨c, List.mem_append_right _ (List.mem_singleton.2 rfl), rfl⟩
      rw [writeChat_exists _ c hex2]
      have hfix : modifyFirstChat (s.panelChats ++ [c]) c.id (appendMissing c)
          = s.panelChats ++ [c] := by
        rw [modifyFirstChat_append_no_match c.id (appendMissing c) s.panelChats [c] hnone]
        have h2 : modifyFirstChat [c] c.id (appendMissing c) = [appendMissing c c] := by
          show (if c.id = c.id then appendMissing c c :: []
            else c :: modifyFirstChat [] c.id (appendMissing c)) = [appendMissing c c]
          rw [if_pos rfl]
        rw [h2, appendMissing_self]
      exact congrArg (fun l => ({ s with panelChats := l } : StashedState)) hfix
  refine ⟨hidem, ?_, ?_⟩
  · intro hnone
    rw [writeChat_not_exists s c (fun hh => by
      obtain ⟨q, hq, hq2⟩ := hh
      exact hnone q hq hq2)]
  · intro hc1 h0
    rw [hidem]
    by_cases hex : ∃ q ∈ s.panelChats, q.id = c.id
    · rw [writeChat_exists s c hex]
      show (((modifyFirstChat s.panelChats c.id (appendMissing c)).filter
          (fun pc => pc.id = c.id)).map (fun pc => msgCountPC pc m)).sum = 1
      have hcount : ∀ x ∈ s.panelChats, x.id = c.id →
          msgCountPC (appendMissing c x) m = msgCountPC x m + 1 :=
        fun x hx _ => appendMissing_count c x m hc1 (h0 x hx)
      rw [chatsCount_modifyFirst c.id m (appendMissing c) (appendMissing_id c)
        s.panelChats hcount hex]
      have hzero : ((s.panelChats.filter (fun pc => pc.id = c.id)).map
          (fun pc => msgCountPC pc m)).sum = 0 := by
        apply List.sum_eq_zero
        intro n hn
        obtain ⟨pc, hpc, hval⟩ := List.mem_map.1 hn
        rw [← hval]
        exact h0 pc (List.mem_filter.1 hpc).1
      rw [hzero]
    · rw [writeChat_not_exists s c hex]
      show (((s.panelChats ++ [c]).filter (fun pc => pc.id = c.id)).map
          (fun pc => msgCountPC pc m)).sum = 1
      rw [List.filter_append, List.map_append, List.sum_append]
      have hzero : ((s.panelChats.filter (fun pc => pc.id = c.id)).map
          (fun pc => msgCountPC pc m)).sum = 0 := by
        apply List.sum_eq_zero
        intro n hn
        obtain ⟨pc, hpc, hval⟩ := List.mem_map.1 hn
        rw [← hval]
        exact h0 pc (List.mem_filter.1 hpc).1
      have hsingle : ([c].filter (fun pc => pc.id = c.id)) = [c] := by
        simp
      rw [hzero, hsingle]
      simp only [List.map_cons, List.map_nil, List.sum_cons, List.sum_nil]
      omega

/-- Witness for C9: writing `cexChatA` twice into the empty stash equals
writing it once, and leaves exactly one stored message with id m1. -/
theorem idempotent_append_witness :
    writeChatToStashedState
        (writeChatToStashedState (⟨[], "1.0", none⟩ : StashedState) cexChatA) cexChatA
      = writeChatToStashedState (⟨[], "1.0", none⟩ : StashedState) cexChatA ∧
    stateChatMsgCount
        (writeChatToStashedState
          (writeChatToStashedState (⟨[], "1.0", none⟩ : StashedState) cexChatA) cexChatA)
        cexChatA.id "m1" = 1 := by
  refine ⟨(idempotent_append (⟨[], "1.0", none⟩ : StashedState) cexChatA "m1").1, ?_⟩
  refine (idempotent_append (⟨[], "1.0", none⟩ : StashedState) cexChatA "m1").2.2 ?_ ?_
  · decide
  · intro q hq
    exact absurd hq (List.not_mem_nil q)

end Gait
